import Mathlib

/-!
# Round-robin scheduler (`Assignment4_Scheduler/scheduler.c`)

A shallow embedding of the timer-driven scheduling step of `scheduler.c`.

* A worker record (`thread_info_t *`) is identified with its index in creation
  order; the heap of records is the function `Sched.info`.
* The globals `sched_queue`, `currentThread`, `wait_times`, `run_times`,
  `completed`, `thread_count`, `quit` are the fields of `Sched`.
* `pthread_kill` and the final `printf` block are recorded as `Event`s.
* `clock_gettime` readings are inputs of a tick (`Readings`).
* `int` is 32 bits and `long` 64 bits (LP64). The two operations whose result
  can leave its type on data the program accepts have the two's-complement
  result: `info->quanta--` on an `int` (`int_decrement`) and the `long` value
  of `time_difference` (`wrap_long`). The accumulators (`run_time`,
  `wait_time`, `run_times`, `wait_times`, `completed`) are exact integers;
  `C13_monotone_times` bounds them by `LONG_MAX` under its conditions.

The namespace `VirtualMemory` embeds the translation loop of
`Assignment5_VirtualMemory/part2/part2.cpp` in the same way.
-/

namespace Scheduler

/-! ## Data model -/

/-- The `struct timespec` of `<time.h>`: seconds and nanoseconds. -/
structure timespec where
  tv_sec : Int
  tv_nsec : Int
deriving DecidableEq

/-- The fields of `thread_info_t` that `scheduler.c` reads or writes
(`thrid` and `le` are the identity of the record: its index). -/
structure thread_info_t where
  quanta : Int
  run_time : Int
  wait_time : Int
  suspend_time : timespec
  resume_time : timespec
deriving DecidableEq

/-- What the scheduler sends to the outside: the three directed signals and the
final statistics block printed by `cancel_worker`. -/
inductive Event where
  /-- The call `pthread_kill(info->thrid, SIGUSR2)` of `resume_worker`. -/
  | resume (w : Nat)
  /-- The call `pthread_kill(info->thrid, SIGUSR1)` of `suspend_worker`. -/
  | suspend (w : Nat)
  /-- The call `pthread_kill(info->thrid, SIGTERM)` of `cancel_worker`. -/
  | cancel (w : Nat)
  /-- The four `printf` lines guarded by `completed >= thread_count`. -/
  | report
deriving DecidableEq

/-- The global variables of `scheduler.c` together with the worker records. -/
structure Sched where
  sched_queue : List Nat
  info : Nat → thread_info_t
  currentThread : Option Nat
  wait_times : Int
  run_times : Int
  completed : Int
  thread_count : Int
  quit : Int

/-- The two clock readings a tick may take: `now` of `update_run_time` (when a
worker is suspended) and `now` of `update_wait_time` (when one is resumed). -/
structure Readings where
  suspend_now : timespec
  resume_now : timespec
deriving DecidableEq

/-! ## C integers -/

/-- The constant `INT_MIN` of a 32-bit `int`. -/
def INT_MIN : Int := -2147483648

/-- The constant `INT_MAX` of a 32-bit `int`. -/
def INT_MAX : Int := 2147483647

/-- The constant `LONG_MIN` of a 64-bit `long`. -/
def LONG_MIN : Int := -9223372036854775808

/-- The constant `LONG_MAX` of a 64-bit `long`. -/
def LONG_MAX : Int := 9223372036854775807

/-- The operation `q--` on an `int`: one less, except at `INT_MIN`, where the
subtraction overflows (undefined in C) and the two's-complement result
`INT_MAX` is taken. -/
def int_decrement (q : Int) : Int := if q = INT_MIN then INT_MAX else q - 1

/-- The `long` that holds the exact value `x`: `x` itself when it fits, else `x`
reduced modulo `2^64` into the range of `long` (two's complement). -/
def wrap_long (x : Int) : Int :=
  (x + 9223372036854775808) % 18446744073709551616 - 9223372036854775808

/-! ## The list library (`list.c`, a separate compilation unit)

Taken as the usual operations of a linked list of distinct elements. -/

/-- Modelled from the spec: `list_size` of the absent `list.c`, the number of elements
(the Run Queue contract `size() -> int`). -/
def list_size (q : List Nat) : Nat := q.length

/-- Modelled from the spec: `list_remove` of the absent `list.c`, unlinking one element
(the Run Queue contract `remove(record)`). -/
def list_remove (q : List Nat) (w : Nat) : List Nat := q.erase w

/-- Modelled from the spec: `list_insert_tail` of the absent `list.c`, linking an element
after the last one (the Run Queue contract `push_tail(record)`). -/
def list_insert_tail (q : List Nat) (w : Nat) : List Nat := q ++ [w]

/-- Modelled from the spec: `leave_scheduler_queue` of the absent `worker.c`, which
takes the worker out of the Run Queue. -/
def leave_scheduler_queue (q : List Nat) (w : Nat) : List Nat := list_remove q w

/-! ## The functions of `scheduler.c` -/

/-- The function `time_difference`, in `long` arithmetic; `/` of C truncates
toward zero. The nanosecond difference is reduced to a `long` before the
division and the sum after it; reducing the difference of the seconds and the
product as well gives the same value. -/
def time_difference (time1 time2 : timespec) : Int :=
  wrap_long ((time1.tv_sec - time2.tv_sec) * 1000000
    + Int.tdiv (wrap_long (time1.tv_nsec - time2.tv_nsec)) 1000)

/-- The function `update_run_time`, with the clock reading `now` as input. -/
def update_run_time (info : thread_info_t) (now : timespec) : thread_info_t :=
  { info with
    run_time := info.run_time + time_difference now info.resume_time
    suspend_time := now }

/-- The function `update_wait_time`, with the clock reading `now` as input. -/
def update_wait_time (info : thread_info_t) (now : timespec) : thread_info_t :=
  { info with
    wait_time := info.wait_time + time_difference now info.suspend_time
    resume_time := now }

/-- A store through the pointer `w`: the record of worker `w` becomes `v`. -/
def setInfo (s : Sched) (w : Nat) (v : thread_info_t) : Sched :=
  { s with info := fun j => if j = w then v else s.info j }

/-- The function `resume_worker`: send SIGUSR2, then `update_wait_time`. -/
def resume_worker (s : Sched) (w : Nat) (now : timespec) : Sched × List Event :=
  (setInfo s w (update_wait_time (s.info w) now), [Event.resume w])

/-- The function `cancel_worker`: send SIGTERM, add the worker's times to the
totals, count it, take it out of the queue, and print the statistics when
`completed >= thread_count`. -/
def cancel_worker (s : Sched) (w : Nat) : Sched × List Event :=
  let s1 : Sched :=
    { s with
      wait_times := s.wait_times + (s.info w).wait_time
      run_times := s.run_times + (s.info w).run_time
      completed := s.completed + 1
      sched_queue := leave_scheduler_queue s.sched_queue w }
  if s1.completed ≥ s1.thread_count then (s1, [Event.cancel w, Event.report])
  else (s1, [Event.cancel w])

/-- The function `suspend_worker`: `update_run_time`, `quanta--`, then either
SIGUSR1 and a move to the tail of the queue, or `cancel_worker`. -/
def suspend_worker (s : Sched) (w : Nat) (now : timespec) : Sched × List Event :=
  let s1 := setInfo s w (update_run_time (s.info w) now)
  let s2 := setInfo s1 w { s1.info w with quanta := int_decrement (s1.info w).quanta }
  if (s2.info w).quanta > 0 then
    ({ s2 with sched_queue := list_insert_tail (list_remove s2.sched_queue w) w },
      [Event.suspend w])
  else cancel_worker s2 w

/-- The function `wait_for_queue`: spins while the queue is empty. Nothing else
runs in this model, so on an empty queue the loop never exits (`none`). -/
def wait_for_queue (q : List Nat) : Option Unit :=
  if list_size q = 0 then none else some ()

/-- The function `next_worker`: `NULL` (inner `none`) once all workers are
completed, else the record at the head of the queue, which stays in the queue.
The outer `none` is a call that never returns. -/
def next_worker (s : Sched) : Option (Option Nat) :=
  if s.completed ≥ s.thread_count then some none
  else
    match wait_for_queue s.sched_queue with
    | none => none
    | some _ => some s.sched_queue.head?

/-- The function `timer_handler`: one tick. The result is the state after the
tick and the events of the tick in order, or `none` when the handler never
returns. -/
def timer_handler (s : Sched) (clk : Readings) : Option (Sched × List Event) :=
  if list_size s.sched_queue = 0 then some ({ s with quit := 1 }, [])
  else
    let r1 : Sched × List Event :=
      match s.currentThread with
      | some c => suspend_worker s c clk.suspend_now
      | none => (s, [])
    match next_worker r1.1 with
    | none => none
    | some info =>
      let s2 : Sched := { r1.1 with currentThread := info }
      match info with
      | some w => some ((resume_worker s2 w clk.resume_now).1,
          r1.2 ++ (resume_worker s2 w clk.resume_now).2)
      | none => some ({ s2 with quit := 1 }, r1.2)

/-- The entry `quanta[i]` of the array filled from the command line. -/
def quantum (quanta : List Int) (i : Nat) : Int := quanta.getD i 0

/-- The records made by `create_workers`: the given quanta, zero accumulated
times, and the two clock readings taken at creation. -/
def create_workers (quanta : List Int) (created : Nat → timespec × timespec) :
    Nat → thread_info_t :=
  fun i =>
    { quanta := quantum quanta i
      run_time := 0
      wait_time := 0
      suspend_time := (created i).1
      resume_time := (created i).2 }

/-- The initial state of a run: all workers in `sched_queue` in index order,
`currentThread` NULL, the counters and `quit` zero. -/
def initial (quanta : List Int) (created : Nat → timespec × timespec) : Sched :=
  { sched_queue := List.range quanta.length
    info := create_workers quanta created
    currentThread := none
    wait_times := 0
    run_times := 0
    completed := 0
    thread_count := quanta.length
    quit := 0 }

/-- A run of ticks, one per element of `clks`: the final state and all events in
order, or `none` if some tick never returns. -/
def run_ticks : Sched → List Readings → Option (Sched × List Event)
  | s, [] => some (s, [])
  | s, c :: cs =>
    match timer_handler s c with
    | none => none
    | some r1 =>
      match run_ticks r1.1 cs with
      | none => none
      | some r2 => some (r2.1, r1.2 ++ r2.2)

/-! ## Observations on a trace -/

/-- The workers passed to `resume_worker`, in order. -/
def resumesOf : List Event → List Nat
  | [] => []
  | Event.resume w :: es => w :: resumesOf es
  | _ :: es => resumesOf es

/-- The reference round-robin order in the words of the specification: for
rounds `r = 1, 2, ...` the workers `i` with `q_i >= r`, in increasing index
order. Rounds above the largest quanta are empty. -/
def rrReference (quanta : List Int) : List Nat :=
  (List.range (quanta.foldr max 0).toNat).flatMap fun r =>
    (List.range quanta.length).filter fun i => decide ((r : Int) + 1 ≤ quantum quanta i)

/-- The effect of one event on the list of workers that have been resumed and
not yet suspended or cancelled. -/
def applyEvent (acc : List Nat) : Event → List Nat
  | Event.resume w => acc ++ [w]
  | Event.suspend w => acc.erase w
  | Event.cancel w => acc.erase w
  | Event.report => acc

/-- The workers resumed and not yet suspended or cancelled after a trace. -/
def runningAfter (tr : List Event) : List Nat := tr.foldl applyEvent []

/-- The directives of a trace: everything but the statistics report. -/
def directivesOf (tr : List Event) : List Event :=
  tr.filter fun e => decide (e ≠ Event.report)

/-- A list of directives made of pairs: a resume of a worker immediately
followed by a suspend or a cancel of the same worker. -/
def paired : List Event → Bool
  | [] => true
  | Event.resume w :: Event.suspend v :: es => decide (w = v) && paired es
  | Event.resume w :: Event.cancel v :: es => decide (w = v) && paired es
  | _ => false

/-! ## Definitions used by the proofs -/

/-- The records after the suspend half of a tick on worker `h`: run time
updated with the reading `t`, quanta decremented. -/
def suspendedInfo (s : Sched) (h : Nat) (t : timespec) : Nat → thread_info_t :=
  fun j => if j = h then
    { update_run_time (s.info h) t with quanta := int_decrement (s.info h).quanta }
    else s.info j

/-- The records after the resume half of a tick on worker `w`. -/
def resumedInfo (f : Nat → thread_info_t) (w : Nat) (t : timespec) : Nat → thread_info_t :=
  fun j => if j = w then update_wait_time (f w) t else f j

/-- The five shapes of a tick of `timer_handler` on a state whose current worker,
if any, is the head of the queue. -/
inductive Step (s : Sched) (c : Readings) : Sched → List Event → Prop where
  | idle : s.sched_queue = [] → Step s c { s with quit := 1 } []
  | first (h : Nat) (r : List Nat) : s.sched_queue = h :: r → s.currentThread = none →
      Step s c
        { s with
          currentThread := some h
          info := resumedInfo s.info h c.resume_now }
        [Event.resume h]
  | rotate (h : Nat) (r : List Nat) (n : Nat) : s.sched_queue = h :: r →
      s.currentThread = some h → 0 < int_decrement (s.info h).quanta →
      (r ++ [h]).head? = some n →
      Step s c
        { s with
          sched_queue := r ++ [h]
          currentThread := some n
          info := resumedInfo (suspendedInfo s h c.suspend_now) n c.resume_now }
        [Event.suspend h, Event.resume n]
  | retire (h n : Nat) (r : List Nat) : s.sched_queue = h :: n :: r →
      s.currentThread = some h → int_decrement (s.info h).quanta ≤ 0 →
      Step s c
        { s with
          sched_queue := n :: r
          currentThread := some n
          completed := s.completed + 1
          wait_times := s.wait_times + (suspendedInfo s h c.suspend_now h).wait_time
          run_times := s.run_times + (suspendedInfo s h c.suspend_now h).run_time
          info := resumedInfo (suspendedInfo s h c.suspend_now) n c.resume_now }
        [Event.cancel h, Event.resume n]
  | last (h : Nat) : s.sched_queue = [h] →
      s.currentThread = some h → int_decrement (s.info h).quanta ≤ 0 →
      Step s c
        { s with
          sched_queue := []
          currentThread := none
          completed := s.completed + 1
          wait_times := s.wait_times + (suspendedInfo s h c.suspend_now h).wait_time
          run_times := s.run_times + (suspendedInfo s h c.suspend_now h).run_time
          info := suspendedInfo s h c.suspend_now
          quit := 1 }
        [Event.cancel h, Event.report]

/-- The invariant that makes a tick well defined: the queue has no duplicates,
it holds exactly the workers not yet counted in `completed`, and the current
worker, if any, is its head. -/
structure Core (s : Sched) : Prop where
  nodup : s.sched_queue.Nodup
  count : s.completed + s.sched_queue.length = s.thread_count
  cur : s.currentThread = none ∨ s.currentThread = s.sched_queue.head?

/-- One suspend step on the list of (worker, quanta) pairs of the queue. -/
def rrNext : List (Nat × Int) → List (Nat × Int)
  | [] => []
  | (i, q) :: t => if 0 < int_decrement q then t ++ [(i, int_decrement q)] else t

/-- The first `n` heads met when `rrNext` is iterated. -/
def rrSim : Nat → List (Nat × Int) → List Nat
  | 0, _ => []
  | _ + 1, [] => []
  | n + 1, (i, q) :: t => i :: rrSim n (rrNext ((i, q) :: t))

/-- What one round leaves of an entry. -/
def rrDec (p : Nat × Int) : Option (Nat × Int) :=
  if 0 < int_decrement p.2 then some (p.1, int_decrement p.2) else none

/-- Rounds over the queue: everybody once, then the survivors, `R` times. -/
def rrRounds : Nat → List (Nat × Int) → List Nat
  | 0, _ => []
  | R + 1, Q => Q.map Prod.fst ++ rrRounds R (Q.filterMap rrDec)

/-- The queue at the start of round `r + 1`: the workers with more than `r`
quanta, each with what is left. -/
def roundQueue (quanta : List Int) (r : Nat) : List (Nat × Int) :=
  (List.range quanta.length).filterMap fun i =>
    if (r : Int) + 1 ≤ quantum quanta i then some (i, quantum quanta i - r) else none

/-- The queue as (worker, quanta left) pairs. -/
def view (s : Sched) : List (Nat × Int) :=
  s.sched_queue.map fun i => (i, (s.info i).quanta)

/-- The sum of the quanta left in a queue. -/
def weightQ (Q : List (Nat × Int)) : Int := (Q.map Prod.snd).sum

/-- The facts that hold of the state `s` and the trace `tr` after `k` ticks
from the initial state, for any quanta. -/
structure Inv (quanta : List Int) (k : Nat) (s : Sched) (tr : List Event) : Prop where
  core : Core s
  tc : s.thread_count = quanta.length
  nonneg : 0 ≤ s.completed
  lt : ∀ i ∈ s.sched_queue, i < quanta.length
  started : 1 ≤ k → s.currentThread = s.sched_queue.head?
  fresh : k = 0 → s.currentThread = none ∧ tr = []
  quitQ : s.quit = 0 ∨ (s.quit = 1 ∧ s.sched_queue = [])
  quitK : 1 ≤ k → s.sched_queue = [] → s.quit = 1
  lastRes : ∀ c, s.currentThread = some c → (resumesOf tr).getLast? = some c
  running : runningAfter tr = s.currentThread.toList
  single : ∀ j, (runningAfter (tr.take j)).length ≤ 1
  cancelled : ∀ i, Event.cancel i ∈ tr ↔ (i < quanta.length ∧ i ∉ s.sched_queue)
  cancelOnce : ∀ i, tr.count (Event.cancel i) ≤ 1
  reports : tr.count Event.report = if s.sched_queue = [] ∧ 0 < quanta.length then 1 else 0
  pairs : ∃ P, paired P = true ∧
    directivesOf tr = P ++ s.currentThread.toList.map Event.resume
  runSum : s.run_times =
    ∑ i ∈ Finset.range quanta.length, if i ∈ s.sched_queue then 0 else (s.info i).run_time
  waitSum : s.wait_times =
    ∑ i ∈ Finset.range quanta.length, if i ∈ s.sched_queue then 0 else (s.info i).wait_time

/-- The facts that hold after `k` ticks when every worker starts with a positive
quanta: the quanta left in the queue are positive, their sum goes down by one
per tick after the first, and the resumes of each worker are counted by the
quanta it has used. -/
structure PosInv (quanta : List Int) (k : Nat) (s : Sched) (tr : List Event) : Prop where
  pos : ∀ i ∈ s.sched_queue, 0 < (s.info i).quanta
  time : (k = 0 ∧ weightQ (view s) = quanta.sum) ∨
    (1 ≤ k ∧ s.sched_queue ≠ [] ∧ weightQ (view s) + k = quanta.sum + 1) ∨
    (1 ≤ k ∧ quanta.sum + 1 ≤ k ∧ s.sched_queue = [])
  resumeCount : ∀ i, i < quanta.length →
    ((tr.count (Event.resume i) : Nat) : Int) =
      quantum quanta i - (if i ∈ s.sched_queue then (s.info i).quanta else 0)
        + (if s.currentThread = some i then 1 else 0)

/-! ## Concrete inputs -/

/-- Creation timestamps: every worker created at time zero. -/
def created0 : Nat → timespec × timespec := fun _ => (⟨0, 0⟩, ⟨0, 0⟩)

/-- The readings of a tick at second `n`. -/
def tickAt (n : Int) : Readings := ⟨⟨n, 0⟩, ⟨n, 0⟩⟩

/-- The readings of `n` ticks, one per second (`QUANTUM` is one second). -/
def ticks (n : Nat) : List Readings := (List.range n).map fun i => tickAt ((i : Int) + 1)

/-! ## Definitions for the budget, time and single-step properties -/

/-- What `suspend_worker` leaves in place when the rest of a tick runs: the
queue, the counters, the totals and every quanta are those after
`suspend_worker`, and the events of the tick start with its events. -/
def KeepsSuspend (r : Sched × List Event) (s1 : Sched) (ev : List Event) : Prop :=
  s1.sched_queue = r.1.sched_queue ∧ s1.completed = r.1.completed ∧
  s1.thread_count = r.1.thread_count ∧ s1.run_times = r.1.run_times ∧
  s1.wait_times = r.1.wait_times ∧ (∀ j, (s1.info j).quanta = (r.1.info j).quanta) ∧
  (ev = r.2 ∨ ∃ n, ev = r.2 ++ [Event.resume n])

/-- The number of quanta a worker with budget `q` really gets: a worker that is
resumed is suspended once before its budget is looked at, so never less than 1;
a budget of `INT_MIN` is decremented to `INT_MAX` and gets `INT_MAX + 1`. -/
def effective (q : Int) : Int := if q = INT_MIN then INT_MAX + 1 else max q 1

/-- The sum of the effective quanta left in the queue. -/
def weightE (s : Sched) : Int :=
  (s.sched_queue.map fun i => effective (s.info i).quanta).sum

/-- The facts that hold after `k` ticks from the initial state for any quanta,
positive or not. -/
structure GenInv (quanta : List Int) (created : Nat → timespec × timespec) (k : Nat)
    (s : Sched) (tr : List Event) : Prop where
  untouched : ∀ i, Event.resume i ∉ tr → s.info i = create_workers quanta created i
  le : ∀ i ∈ s.sched_queue, (s.info i).quanta = quantum quanta i ∨
    (0 < (s.info i).quanta ∧ (s.info i).quanta < quantum quanta i) ∨
    quantum quanta i = INT_MIN
  nonpos : ∀ i, i < quanta.length → quantum quanta i ≤ 0 → quantum quanta i ≠ INT_MIN →
    (i ∈ s.sched_queue → (s.info i).quanta = quantum quanta i) ∧
    (i ∉ s.sched_queue → (s.info i).quanta = quantum quanta i - 1)
  noSuspend : ∀ i, Event.suspend i ∈ tr → 2 ≤ quantum quanta i ∨ quantum quanta i = INT_MIN
  time : (k = 0 ∧ weightE s = (quanta.map effective).sum) ∨
    (1 ≤ k ∧ s.sched_queue ≠ [] ∧ weightE s + k = (quanta.map effective).sum + 1) ∨
    (1 ≤ k ∧ (quanta.map effective).sum + 1 ≤ k ∧ s.sched_queue = [])
  resumeCount : ∀ i, i < quanta.length →
    ((tr.count (Event.resume i) : Nat) : Int) =
      effective (quantum quanta i)
        - (if i ∈ s.sched_queue then effective (s.info i).quanta else 0)
        + (if s.currentThread = some i then 1 else 0)

/-- A normalized `struct timespec`: `0 <= tv_nsec < 10^9`. -/
def normalized (t : timespec) : Prop := 0 ≤ t.tv_nsec ∧ t.tv_nsec < 1000000000

/-- The exact value of a timespec in nanoseconds. -/
def nanos (t : timespec) : Int := t.tv_sec * 1000000000 + t.tv_nsec

/-- The order of time: `a` is not later than `b`. -/
def tsLe (a b : timespec) : Prop :=
  a.tv_sec < b.tv_sec ∨ (a.tv_sec = b.tv_sec ∧ a.tv_nsec ≤ b.tv_nsec)

/-- The clock readings of a run of ticks, in the order they are taken. -/
def readingsOf (clks : List Readings) : List timespec :=
  clks.flatMap fun c => [c.suspend_now, c.resume_now]

/-- Whether the exact value `x` is a value of `long`. -/
def fits_long (x : Int) : Prop := LONG_MIN ≤ x ∧ x ≤ LONG_MAX

/-- No integer overflow in `time_difference time1 time2`: the exact value of
every operation of the expression is a value of `long`. -/
def no_overflow (time1 time2 : timespec) : Prop :=
  fits_long (time1.tv_sec - time2.tv_sec) ∧
  fits_long ((time1.tv_sec - time2.tv_sec) * 1000000) ∧
  fits_long (time1.tv_nsec - time2.tv_nsec) ∧
  fits_long ((time1.tv_sec - time2.tv_sec) * 1000000
    + Int.tdiv (time1.tv_nsec - time2.tv_nsec) 1000)

/-- A strict bound, in microseconds, on the difference of two normalized
timestamps whose seconds lie between `lo` and `hi`. -/
def spanMicros (lo hi : Int) : Int := (hi - lo + 1) * 1000000

/-- The time fields of the first `N` records are sound with respect to the
readings `F` still to come: the timestamps are normalized, not before second
`lo` and not later than any of `F`, and the accumulated times are not
negative. -/
def HeapOK (N : Nat) (lo : Int) (F : List timespec) (f : Nat → thread_info_t) : Prop :=
  ∀ i, i < N →
    normalized (f i).suspend_time ∧ normalized (f i).resume_time ∧
    lo ≤ (f i).suspend_time.tv_sec ∧ lo ≤ (f i).resume_time.tv_sec ∧
    (∀ t ∈ F, tsLe (f i).suspend_time t ∧ tsLe (f i).resume_time t) ∧
    0 ≤ (f i).run_time ∧ 0 ≤ (f i).wait_time

/-- The time invariant of a state after `k` ticks: sound records, accumulated
times of at most `k` differences below `B` each, and totals that are not
negative. -/
structure TimeInv (quanta : List Int) (lo B : Int) (k : Nat) (F : List timespec)
    (s : Sched) : Prop where
  heap : HeapOK quanta.length lo F s.info
  upper : ∀ i, i < quanta.length →
    (s.info i).run_time ≤ k * B ∧ (s.info i).wait_time ≤ k * B
  totals : 0 ≤ s.run_times ∧ 0 ≤ s.wait_times

/-- No accumulated time of the first `N` workers and no total decreases from `s`
to `s1`. -/
def TimesMono (N : Nat) (s s1 : Sched) : Prop :=
  (∀ i, i < N → (s.info i).run_time ≤ (s1.info i).run_time ∧
    (s.info i).wait_time ≤ (s1.info i).wait_time) ∧
  s.run_times ≤ s1.run_times ∧ s.wait_times ≤ s1.wait_times

/-- Whether a timespec is normalized can be computed. -/
instance normalizedDecidable (t : timespec) : Decidable (normalized t) := by
  unfold normalized
  infer_instance

/-- The order of time can be computed. -/
instance tsLeDecidable (a b : timespec) : Decidable (tsLe a b) := by
  unfold tsLe
  infer_instance

/-- Whether a value fits into a `long` can be computed. -/
instance fits_longDecidable (x : Int) : Decidable (fits_long x) := by
  unfold fits_long
  infer_instance

/-- Whether `time_difference` overflows can be computed. -/
instance no_overflowDecidable (a b : timespec) : Decidable (no_overflow a b) := by
  unfold no_overflow
  infer_instance

/-- Three ticks whose readings cross a second boundary, so that the nanosecond
field of a later reading is smaller than that of an earlier one. -/
def jitterTicks : List Readings :=
  [⟨⟨1, 900000000⟩, ⟨1, 900000500⟩⟩, ⟨⟨2, 100000000⟩, ⟨2, 100000700⟩⟩,
   ⟨⟨3, 50⟩, ⟨3, 999999999⟩⟩]

/-- The reading of the tick after `jitterTicks`. -/
def jitterLast : Readings := ⟨⟨4, 0⟩, ⟨4, 1⟩⟩

/-- A state with nothing queued and one worker still to complete. -/
def emptyQueueState : Sched :=
  { sched_queue := []
    info := create_workers [2] created0
    currentThread := none
    wait_times := 0
    run_times := 0
    completed := 0
    thread_count := 1
    quit := 0 }

/-- A state in which the only queued worker runs its last quantum while a second
worker has not entered the queue yet (`queue_size` 1, two workers). -/
def lastQueuedState : Sched :=
  { sched_queue := [0]
    info := create_workers [1, 1] created0
    currentThread := some 0
    wait_times := 0
    run_times := 0
    completed := 0
    thread_count := 2
    quit := 0 }

end Scheduler

/-! ## The demand-paging simulator (`part2.cpp`) -/

namespace VirtualMemory

/-- The constant `FRAME_COUNT`. -/
def FRAME_COUNT : Int := 128

/-- The constant `FRAME_SIZE`. -/
def FRAME_SIZE : Int := 256

/-- The constant `PAGE_COUNT`. -/
def PAGE_COUNT : Nat := 256

/-- The constant `TLB_SIZE`. -/
def TLB_SIZE : Nat := 16

/-- The constant `INT_MAX` of `<climits>`. -/
def INT_MAX : Int := 2147483647

/-- The globals of `part2.cpp`. `memory[f]` is kept as the number of the
backing-store page whose bytes frame `f` holds (`-1` while it is still
zero-filled); `lruMap` is the list of its (page, usage) entries. -/
structure VM where
  pageTable : List Int
  memory : List Int
  fifoQueue : List Int
  lruMap : List (Int × Int)
  TLB : List (Int × Int)
  pageFaultCount : Int
  tlbHitCount : Int
  addressCount : Int
  firstFreeFrame : Int
deriving DecidableEq

/-- One line of `correct.txt`: the logical address, the physical address, and
the backing-store page whose byte is printed as the value. -/
structure Line where
  logicalAddress : Int
  physicalAddress : Int
  valueFromPage : Int
deriving DecidableEq

/-- The read `a[i]` of an `int` array. -/
def readAt (a : List Int) (i : Int) : Int := a.getD i.toNat 0

/-- The write `a[i] = v` to an `int` array. -/
def writeAt (a : List Int) (i : Int) (v : Int) : List Int := a.set i.toNat v

/-- The state after `initializeStructures`, with the zero-initialized globals. -/
def initializeStructures : VM :=
  { pageTable := List.replicate PAGE_COUNT (-1)
    memory := List.replicate FRAME_COUNT.toNat (-1)
    fifoQueue := []
    lruMap := []
    TLB := []
    pageFaultCount := 0
    tlbHitCount := 0
    addressCount := 0
    firstFreeFrame := 0 }

/-- The function `get_page_and_offset`: `(a >> 8) & 0xff` and `a & 0xff`. -/
def get_page_and_offset (logical_address : Int) : Int × Int :=
  ((logical_address / 256) % 256, logical_address % 256)

/-- The function `backing_store_to_memory`: frame `frame_num` now holds the bytes
of page `page_num`. -/
def backing_store_to_memory (st : VM) (page_num frame_num : Int) : VM :=
  { st with memory := writeAt st.memory frame_num page_num }

/-- The loop of `get_available_frame` over `lruMap`: the entry with the least
usage below `minUsage`, entries taken in list order. -/
def lruScan : List (Int × Int) → Int → Int → Int × Int
  | [], lruPage, minUsage => (lruPage, minUsage)
  | entry :: rest, lruPage, minUsage =>
    if entry.2 < minUsage then lruScan rest entry.1 entry.2
    else lruScan rest lruPage minUsage

/-- The function `get_available_frame`: the new state and the frame, or `none`
where the program calls `exit(1)`. -/
def get_available_frame (st : VM) (policy : String) : Option (VM × Int) :=
  if st.firstFreeFrame < FRAME_COUNT then
    some ({ st with firstFreeFrame := st.firstFreeFrame + 1 }, st.firstFreeFrame)
  else if policy = "fifo" then
    match st.fifoQueue with
    | evictedPage :: rest =>
      some ({ st with
              fifoQueue := rest
              pageTable := writeAt st.pageTable evictedPage (-1) },
            readAt st.pageTable evictedPage)
    | [] => none
  else if policy = "lru" then
    let lruPage := (lruScan st.lruMap (-1) INT_MAX).1
    if lruPage ≠ -1 then
      some ({ st with
              lruMap := st.lruMap.filter fun e => decide (e.1 ≠ lruPage)
              pageTable := writeAt st.pageTable lruPage (-1) },
            readAt st.pageTable lruPage)
    else none
  else none

/-- The assignment `lruMap[page] = usage` of `std::unordered_map`. -/
def lruAssign : List (Int × Int) → Int → Int → List (Int × Int)
  | [], page, usage => [(page, usage)]
  | entry :: rest, page, usage =>
    if entry.1 = page then (page, usage) :: rest else entry :: lruAssign rest page usage

/-- The function `update_page_table`. -/
def update_page_table (st : VM) (page_num frame_num : Int) (policy : String) : VM :=
  let st1 : VM :=
    if policy = "fifo" then
      if readAt st.pageTable page_num = -1 then
        { st with fifoQueue := st.fifoQueue ++ [page_num] }
      else st
    else if policy = "lru" then
      { st with lruMap := lruAssign st.lruMap page_num st.addressCount }
    else st
  { st1 with pageTable := writeAt st1.pageTable page_num frame_num }

/-- The first loop of `update_tlb`: overwrite the frame of the first entry for
`page_num`; `none` when there is no such entry. -/
def tlbOverwrite : List (Int × Int) → Int → Int → Option (List (Int × Int))
  | [], _, _ => none
  | entry :: rest, page_num, frame_num =>
    if entry.1 = page_num then some ((entry.1, frame_num) :: rest)
    else (tlbOverwrite rest page_num frame_num).map fun l => entry :: l

/-- The function `update_tlb`. -/
def update_tlb (tlb : List (Int × Int)) (page_num frame_num : Int) : List (Int × Int) :=
  match tlbOverwrite tlb page_num frame_num with
  | some l => l
  | none =>
    (if tlb.length = TLB_SIZE then tlb.tail else tlb) ++ [(page_num, frame_num)]

/-- The function `search_tlb`. -/
def search_tlb : List (Int × Int) → Int → Int
  | [], _ => -1
  | entry :: rest, page_num => if entry.1 = page_num then entry.2 else search_tlb rest page_num

/-- One iteration of the translation loop of `main` on the address read from
the file: the new state and the line written, or `none` on `exit(1)`. -/
def translate (st : VM) (policy : String) (logicalAddress : Int) : Option (VM × Line) :=
  let pageNumber := (get_page_and_offset logicalAddress).1
  let offset := (get_page_and_offset logicalAddress).2
  let hit := search_tlb st.TLB pageNumber
  let r : Option (VM × Int) :=
    if hit ≠ -1 then some ({ st with tlbHitCount := st.tlbHitCount + 1 }, hit)
    else
      let r1 : Option (VM × Int) :=
        if readAt st.pageTable pageNumber = -1 then
          match get_available_frame st policy with
          | none => none
          | some p =>
            some ({ backing_store_to_memory p.1 pageNumber p.2 with
                    pageFaultCount := p.1.pageFaultCount + 1 }, p.2)
        else some (st, readAt st.pageTable pageNumber)
      match r1 with
      | none => none
      | some p =>
        let st2 := update_page_table p.1 pageNumber p.2 policy
        some ({ st2 with TLB := update_tlb st2.TLB pageNumber p.2 }, p.2)
  match r with
  | none => none
  | some p =>
    let st3 : VM :=
      if policy = "lru" then
        { p.1 with lruMap := lruAssign p.1.lruMap pageNumber p.1.addressCount }
      else p.1
    some ({ st3 with addressCount := st3.addressCount + 1 },
      { logicalAddress := logicalAddress
        physicalAddress := p.2 * FRAME_SIZE + offset
        valueFromPage := readAt st3.memory p.2 })

/-- The translation loop of `main` from the state `st` over the addresses of the
file: the final state and the lines written, or `none` on `exit(1)`. -/
def translateAll (policy : String) : VM → List Int → Option (VM × List Line)
  | st, [] => some (st, [])
  | st, a :: rest =>
    match translate st policy a with
    | none => none
    | some p =>
      match translateAll policy p.1 rest with
      | none => none
      | some q => some (q.1, p.2 :: q.2)

/-- TLB coherence: every TLB entry `(p, f)` has `pageTable[p] == f`. -/
def tlbCoherent (st : VM) : Bool :=
  st.TLB.all fun e => decide (readAt st.pageTable e.1 = e.2)

/-- An address file that fills the 128 frames with pages 0 to 127, touches page
0 again and then faults on page 128. -/
def staleInput : List Int :=
  (List.range 128).map (fun p => (p : Int) * 256) ++ [0, 128 * 256]

end VirtualMemory

/-! # Theorems -/

namespace Scheduler

/-! ## C integers -/

theorem int_decrement_cases (q : Int) :
    (q = -2147483648 ∧ int_decrement q = 2147483647) ∨
    (q ≠ -2147483648 ∧ int_decrement q = q - 1) := by
  unfold int_decrement INT_MIN INT_MAX
  by_cases h : q = -2147483648
  · exact Or.inl ⟨h, by rw [if_pos h]⟩
  · exact Or.inr ⟨h, by rw [if_neg h]⟩

theorem int_decrement_of_pos {q : Int} (h : 0 < q) : int_decrement q = q - 1 := by
  rcases int_decrement_cases q with ⟨h1, _⟩ | ⟨_, h2⟩
  · omega
  · exact h2

theorem wrap_long_of_fits {x : Int} (h1 : -9223372036854775808 ≤ x)
    (h2 : x ≤ 9223372036854775807) : wrap_long x = x := by
  unfold wrap_long
  omega

/-! ## One tick in normal form -/

theorem suspendedInfo_self (s : Sched) (h : Nat) (t : timespec) :
    suspendedInfo s h t h =
      { update_run_time (s.info h) t with quanta := int_decrement (s.info h).quanta } := by
  simp [suspendedInfo]

theorem suspendedInfo_quanta_self (s : Sched) (h : Nat) (t : timespec) :
    (suspendedInfo s h t h).quanta = int_decrement (s.info h).quanta := by
  simp [suspendedInfo]

theorem suspendedInfo_other (s : Sched) (h : Nat) (t : timespec) (j : Nat) (hj : j ≠ h) :
    suspendedInfo s h t j = s.info j := by
  simp [suspendedInfo, hj]

theorem resumedInfo_quanta (f : Nat → thread_info_t) (w : Nat) (t : timespec) (j : Nat) :
    (resumedInfo f w t j).quanta = (f j).quanta := by
  by_cases hj : j = w <;> simp [resumedInfo, update_wait_time, hj]

theorem resumedInfo_run_time (f : Nat → thread_info_t) (w : Nat) (t : timespec) (j : Nat) :
    (resumedInfo f w t j).run_time = (f j).run_time := by
  by_cases hj : j = w <;> simp [resumedInfo, update_wait_time, hj]

theorem resumedInfo_other (f : Nat → thread_info_t) (w : Nat) (t : timespec) (j : Nat)
    (hj : j ≠ w) : resumedInfo f w t j = f j := by
  simp [resumedInfo, hj]

theorem suspend_state_eq (s : Sched) (h : Nat) (t : timespec) :
    setInfo (setInfo s h (update_run_time (s.info h) t)) h
      { (setInfo s h (update_run_time (s.info h) t)).info h with
        quanta := int_decrement ((setInfo s h (update_run_time (s.info h) t)).info h).quanta }
      = { s with info := suspendedInfo s h t } := by
  have e : (setInfo (setInfo s h (update_run_time (s.info h) t)) h
      { (setInfo s h (update_run_time (s.info h) t)).info h with
        quanta := int_decrement ((setInfo s h (update_run_time (s.info h) t)).info h).quanta }).info
      = suspendedInfo s h t := by
    funext j
    by_cases hj : j = h <;> simp [setInfo, suspendedInfo, update_run_time, hj]
  cases s
  simp only [setInfo] at e ⊢
  rw [e]

theorem suspend_worker_eq (s : Sched) (w : Nat) (t : timespec) :
    suspend_worker s w t =
      if 0 < int_decrement (s.info w).quanta then
        ({ s with
            info := suspendedInfo s w t
            sched_queue := s.sched_queue.erase w ++ [w] }, [Event.suspend w])
      else cancel_worker { s with info := suspendedInfo s w t } w := by
  unfold suspend_worker
  simp only [suspend_state_eq, suspendedInfo_quanta_self, gt_iff_lt, list_insert_tail,
    list_remove]

theorem cancel_worker_eq (s : Sched) (w : Nat) :
    cancel_worker s w =
      ({ s with
          wait_times := s.wait_times + (s.info w).wait_time
          run_times := s.run_times + (s.info w).run_time
          completed := s.completed + 1
          sched_queue := s.sched_queue.erase w },
        if s.thread_count ≤ s.completed + 1 then [Event.cancel w, Event.report]
        else [Event.cancel w]) := by
  unfold cancel_worker
  simp only [leave_scheduler_queue, list_remove, ge_iff_le]
  split <;> rfl

theorem timer_handler_step (s : Sched) (c : Readings) (hs : Core s) :
    ∃ s1 ev, timer_handler s c = some (s1, ev) ∧ Step s c s1 ev := by
  obtain ⟨hnd, hcnt, hcur⟩ := hs
  cases hq : s.sched_queue with
  | nil =>
    exact ⟨_, _, by simp [timer_handler, list_size, hq], Step.idle hq⟩
  | cons h r =>
    rw [hq] at hnd hcnt hcur
    simp only [List.length_cons, List.head?_cons] at hcnt hcur
    have hlt : ¬ s.thread_count ≤ s.completed := by push_cast at hcnt; omega
    have her : (h :: r).erase h = r := List.erase_cons_head h r
    rcases hcur with hc | hc
    · refine ⟨_, _, ?_, Step.first h r hq hc⟩
      simp [timer_handler, list_size, hq, hc, next_worker, hlt, wait_for_queue,
        resume_worker, setInfo]
      rfl
    · by_cases hpos : 0 < int_decrement (s.info h).quanta
      · have hne : r ++ [h] ≠ [] := by simp
        obtain ⟨n, hn⟩ : ∃ n, (r ++ [h]).head? = some n := by
          cases hr : r ++ [h] with
          | nil => exact absurd hr hne
          | cons a l => exact ⟨a, rfl⟩
        refine ⟨_, _, ?_, Step.rotate h r n hq hc hpos hn⟩
        simp [timer_handler, list_size, hq, hc, next_worker, hlt, wait_for_queue,
          resume_worker, suspend_worker_eq, hpos, hn, her, setInfo]
        rfl
      · have hle : int_decrement (s.info h).quanta ≤ 0 := by omega
        cases r with
        | nil =>
          refine ⟨_, _, ?_, Step.last h hq hc hle⟩
          have hc1 : s.thread_count ≤ s.completed + 1 := by simp at hcnt; omega
          simp [timer_handler, list_size, hq, hc, next_worker, wait_for_queue,
            suspend_worker_eq, cancel_worker_eq, hpos, hc1]
        | cons n r =>
          refine ⟨_, _, ?_, Step.retire h n r hq hc hle⟩
          have hc1 : ¬ s.thread_count ≤ s.completed + 1 := by
            simp at hcnt; omega
          simp [timer_handler, list_size, hq, hc, next_worker, wait_for_queue,
            suspend_worker_eq, cancel_worker_eq, hpos, hc1, resume_worker, setInfo]
          rfl

/-! ## The queue discipline on its own: remove the head, append it if quanta remain -/

theorem rrSim_nil (n : Nat) : rrSim n [] = [] := by
  cases n <;> rfl

theorem rrSim_append (A : List (Nat × Int)) :
    ∀ (n : Nat) (B : List (Nat × Int)),
      rrSim n (A ++ B) =
        (A.map Prod.fst).take n ++ rrSim (n - A.length) (B ++ A.filterMap rrDec) := by
  induction A with
  | nil => intro n B; simp
  | cons p A ih =>
    intro n B
    obtain ⟨i, q⟩ := p
    cases n with
    | zero => simp [rrSim]
    | succ n =>
      show i :: rrSim n (if 0 < int_decrement q then (A ++ B) ++ [(i, int_decrement q)]
        else A ++ B) = _
      by_cases hq : 0 < int_decrement q
      · rw [if_pos hq, List.append_assoc, ih]
        simp [rrDec, hq]
      · rw [if_neg hq, ih]
        simp [rrDec, hq]

theorem rrSim_eq_rounds (R : Nat) :
    ∀ (n : Nat) (Q : List (Nat × Int)), (∀ p ∈ Q, 0 < p.2 ∧ p.2 ≤ R) →
      rrSim n Q = (rrRounds R Q).take n := by
  induction R with
  | zero =>
    intro n Q hQ
    cases Q with
    | nil => simp [rrSim_nil, rrRounds]
    | cons p Q =>
      have := hQ p (by simp)
      simp at this
      omega
  | succ R ih =>
    intro n Q hQ
    have h1 := rrSim_append Q n []
    simp only [List.append_nil, List.nil_append] at h1
    rw [h1, rrRounds, List.take_append_eq_append_take, List.length_map]
    congr 1
    apply ih
    intro p hp
    rw [List.mem_filterMap] at hp
    obtain ⟨a, ha, hap⟩ := hp
    have := hQ a ha
    have hd := int_decrement_of_pos this.1
    unfold rrDec at hap
    split at hap
    · cases hap
      simp
      push_cast at this
      omega
    · cases hap

theorem roundQueue_fst (quanta : List Int) (r : Nat) :
    (roundQueue quanta r).map Prod.fst =
      (List.range quanta.length).filter fun i => decide ((r : Int) + 1 ≤ quantum quanta i) := by
  unfold roundQueue
  induction List.range quanta.length with
  | nil => rfl
  | cons a l ih =>
    by_cases h : (r : Int) + 1 ≤ quantum quanta a
    · simp only [List.filterMap_cons, List.filter_cons, h, if_true, List.map_cons, ih,
        decide_True]
    · simp only [List.filterMap_cons, List.filter_cons, h, if_false, ih, decide_False]
      rfl

theorem roundQueue_dec (quanta : List Int) (r : Nat) :
    (roundQueue quanta r).filterMap rrDec = roundQueue quanta (r + 1) := by
  unfold roundQueue
  rw [List.filterMap_filterMap]
  apply List.filterMap_congr
  intro i _
  by_cases h : (r : Int) + 1 ≤ quantum quanta i
  · have hd : int_decrement (quantum quanta i - r) = quantum quanta i - r - 1 :=
      int_decrement_of_pos (by omega)
    by_cases h2 : ((r + 1 : Nat) : Int) + 1 ≤ quantum quanta i
    · have h3 : 0 < quantum quanta i - r - 1 := by push_cast at h2; omega
      have h4 : quantum quanta i - r - 1 = quantum quanta i - ((r + 1 : Nat) : Int) := by
        push_cast; omega
      simp only [h, h2, if_true, Option.bind, rrDec, hd, h4]
      rw [if_pos (by rw [← h4]; exact h3)]
    · have h3 : ¬ 0 < quantum quanta i - r - 1 := by push_cast at h2; omega
      simp only [h, h2, if_true, if_false, Option.bind, rrDec, hd, h3]
  · have h2 : ¬ ((r + 1 : Nat) : Int) + 1 ≤ quantum quanta i := by push_cast; omega
    simp only [h, h2, if_false, Option.bind]

theorem rrRounds_roundQueue (quanta : List Int) (R : Nat) :
    ∀ r : Nat, rrRounds R (roundQueue quanta r) =
      (List.range R).flatMap fun k =>
        (List.range quanta.length).filter fun i =>
          decide (((r + k : Nat) : Int) + 1 ≤ quantum quanta i) := by
  induction R with
  | zero => intro r; simp [rrRounds]
  | succ R ih =>
    intro r
    rw [rrRounds, roundQueue_fst, roundQueue_dec, ih, List.range_succ_eq_map]
    simp only [List.flatMap_cons, List.flatMap_map, Nat.add_zero, Nat.succ_eq_add_one]
    congr 1
    apply List.flatMap_congr
    intro k _
    have : r + 1 + k = r + (k + 1) := by omega
    rw [this]

/-! ## The tick preserves the core invariant and follows the queue discipline -/

theorem resumesOf_append (a b : List Event) :
    resumesOf (a ++ b) = resumesOf a ++ resumesOf b := by
  induction a with
  | nil => rfl
  | cons e a ih => cases e <;> simp [resumesOf, ih]

theorem head?_snoc_exists (r : List Nat) (h : Nat) : ∃ n, (r ++ [h]).head? = some n := by
  cases r with
  | nil => exact ⟨h, rfl⟩
  | cons a l => exact ⟨a, rfl⟩

theorem step_core {s s1 : Sched} {c : Readings} {ev : List Event} (st : Step s c s1 ev)
    (hs : Core s) : Core s1 ∧ s1.currentThread = s1.sched_queue.head? := by
  obtain ⟨hnd, hcnt, hcur⟩ := hs
  cases st with
  | idle hq =>
    have hc : s.currentThread = none := by
      rcases hcur with h | h
      · exact h
      · rw [h, hq]; rfl
    exact ⟨⟨hnd, hcnt, Or.inl hc⟩, by simp [hc, hq]⟩
  | first h r hq hc =>
    exact ⟨⟨hnd, hcnt, Or.inr (by simp [hq])⟩, by simp [hq]⟩
  | rotate h r n hq hc hpos hn =>
    rw [hq] at hnd hcnt
    refine ⟨⟨?_, ?_, Or.inr hn.symm⟩, hn.symm⟩
    · have : (r ++ [h]).Perm (h :: r) :=
        (List.perm_append_comm : (r ++ [h]).Perm ([h] ++ r))
      exact this.nodup_iff.mpr hnd
    · simpa using hcnt
  | retire h n r hq hc hle =>
    rw [hq] at hnd hcnt
    refine ⟨⟨(List.nodup_cons.mp hnd).2, ?_, Or.inr rfl⟩, rfl⟩
    simp only [List.length_cons] at hcnt ⊢
    push_cast at hcnt ⊢
    omega
  | last h hq hc hle =>
    rw [hq] at hcnt
    refine ⟨⟨List.nodup_nil, ?_, Or.inl rfl⟩, rfl⟩
    simp only [List.length_cons, List.length_nil] at hcnt ⊢
    push_cast at hcnt ⊢
    omega

theorem step_view {s s1 : Sched} {c : Readings} {ev : List Event} (st : Step s c s1 ev)
    (hs : Core s) (hst : s.currentThread = s.sched_queue.head?) :
    view s1 = rrNext (view s) ∧ resumesOf ev = ((view s1).head?.map Prod.fst).toList := by
  obtain ⟨hnd, hcnt, hcur⟩ := hs
  cases st with
  | idle hq => simp [view, hq, rrNext, resumesOf]
  | first h r hq hc => rw [hq, hc] at hst; cases hst
  | rotate h r n hq hc hpos hn =>
    rw [hq] at hnd
    have hnr : h ∉ r := (List.nodup_cons.mp hnd).1
    have hr : ∀ j ∈ r, (suspendedInfo s h c.suspend_now j).quanta = (s.info j).quanta := by
      intro j hj
      rw [suspendedInfo_other]
      rintro rfl
      exact hnr hj
    constructor
    · simp only [view, hq, List.map_cons, rrNext, hpos, if_true, List.map_append,
        List.map_nil, resumedInfo_quanta, suspendedInfo_quanta_self]
      congr 1
      apply List.map_congr_left
      intro j hj
      rw [hr j hj]
    · simp only [view, resumesOf, List.head?_map, hn, Option.map_some', Option.toList]
  | retire h n r hq hc hle =>
    rw [hq] at hnd
    have hnr : h ∉ n :: r := (List.nodup_cons.mp hnd).1
    have hle2 : ¬ 0 < int_decrement (s.info h).quanta := by omega
    constructor
    · simp only [view, hq, rrNext, hle2, if_false, resumedInfo_quanta]
      rw [List.map_cons (l := n :: r)]
      simp only [rrNext, hle2, if_false]
      apply List.map_congr_left
      intro j hj
      rw [suspendedInfo_other]
      rintro rfl
      exact hnr hj
    · simp [view, resumesOf]
  | last h hq hc hle =>
    have hle2 : ¬ 0 < int_decrement (s.info h).quanta := by omega
    simp [view, hq, rrNext, hle2, resumesOf]

theorem rrSim_tail (m : Nat) (Q : List (Nat × Int)) :
    (rrSim (m + 2) Q).tail = rrSim (m + 1) (rrNext Q) := by
  cases Q with
  | nil => simp [rrSim, rrNext]
  | cons p t => obtain ⟨i, q⟩ := p; simp [rrSim]

theorem rrSim_head (m : Nat) (Q : List (Nat × Int)) :
    rrSim (m + 1) Q = (Q.head?.map Prod.fst).toList ++ (rrSim (m + 1) Q).tail := by
  cases Q with
  | nil => simp [rrSim]
  | cons p t => obtain ⟨i, q⟩ := p; simp [rrSim]

theorem run_ticks_cons (s : Sched) (c : Readings) (cs : List Readings) (s1 s2 : Sched)
    (e1 e2 : List Event) (h1 : timer_handler s c = some (s1, e1))
    (h2 : run_ticks s1 cs = some (s2, e2)) :
    run_ticks s (c :: cs) = some (s2, e1 ++ e2) := by
  simp [run_ticks, h1, h2]

/-- From a state whose current worker is the head of the queue, a run of ticks
returns, and it resumes the heads that the queue discipline meets. -/
theorem run_ticks_sim (clks : List Readings) :
    ∀ s : Sched, Core s → s.currentThread = s.sched_queue.head? →
      ∃ s2 tr, run_ticks s clks = some (s2, tr) ∧
        resumesOf tr = (rrSim (clks.length + 1) (view s)).tail := by
  induction clks with
  | nil =>
    intro s _ _
    refine ⟨s, [], rfl, ?_⟩
    cases hv : view s with
    | nil => simp [rrSim, resumesOf]
    | cons p t => obtain ⟨i, q⟩ := p; simp [rrSim, resumesOf]
  | cons c cs ih =>
    intro s hs hst
    obtain ⟨s1, e1, h1, st⟩ := timer_handler_step s c hs
    obtain ⟨hs1, hst1⟩ := step_core st hs
    obtain ⟨hv, hr⟩ := step_view st hs hst
    obtain ⟨s2, e2, h2, hres⟩ := ih s1 hs1 hst1
    refine ⟨s2, e1 ++ e2, run_ticks_cons s c cs s1 s2 e1 e2 h1 h2, ?_⟩
    rw [resumesOf_append, hr, hres, List.length_cons, rrSim_tail, ← hv]
    exact (rrSim_head _ _).symm

/-! ## Runs from the initial state -/

theorem initial_core (quanta : List Int) (created : Nat → timespec × timespec) :
    Core (initial quanta created) :=
  ⟨List.nodup_range _, by simp [initial], Or.inl rfl⟩

theorem quantum_pos (quanta : List Int) (hpos : ∀ x ∈ quanta, 0 < x) (i : Nat)
    (hi : i < quanta.length) : 0 < quantum quanta i := by
  unfold quantum
  rw [List.getD_eq_getElem _ _ hi]
  exact hpos _ (List.getElem_mem hi)

theorem quantum_le_max (quanta : List Int) (i : Nat) (hi : i < quanta.length) :
    quantum quanta i ≤ quanta.foldr max 0 := by
  unfold quantum
  rw [List.getD_eq_getElem _ _ hi]
  have : ∀ (l : List Int) (x : Int), x ∈ l → x ≤ l.foldr max 0 := by
    intro l
    induction l with
    | nil => intro x hx; cases hx
    | cons a l ih =>
      intro x hx
      rw [List.foldr_cons]
      rcases List.mem_cons.mp hx with rfl | hx
      · exact le_max_left _ _
      · exact le_trans (ih x hx) (le_max_right _ _)
  exact this _ _ (List.getElem_mem hi)

theorem view_initial (quanta : List Int) (created : Nat → timespec × timespec)
    (hpos : ∀ x ∈ quanta, 0 < x) : view (initial quanta created) = roundQueue quanta 0 := by
  unfold view roundQueue initial create_workers
  simp only
  have : ∀ l : List Nat, (∀ i ∈ l, i < quanta.length) →
      l.map (fun i => (i, quantum quanta i)) =
        l.filterMap fun i =>
          if ((0 : Nat) : Int) + 1 ≤ quantum quanta i then
            some (i, quantum quanta i - ((0 : Nat) : Int)) else none := by
    intro l
    induction l with
    | nil => intro _; rfl
    | cons a l ih =>
      intro hl
      have ha := quantum_pos quanta hpos a (hl a (by simp))
      have h1 : ((0 : Nat) : Int) + 1 ≤ quantum quanta a := by push_cast; omega
      rw [List.map_cons, List.filterMap_cons, if_pos h1, ih (fun i hi => hl i (by simp [hi]))]
      simp
  exact this _ (fun i hi => List.mem_range.mp hi)

theorem rrReference_eq_rounds (quanta : List Int) :
    rrReference quanta = rrRounds (quanta.foldr max 0).toNat (roundQueue quanta 0) := by
  rw [rrRounds_roundQueue]
  unfold rrReference
  simp

theorem roundQueue_bound (quanta : List Int) (hpos : ∀ x ∈ quanta, 0 < x) :
    ∀ p ∈ roundQueue quanta 0, 0 < p.2 ∧ p.2 ≤ ((quanta.foldr max 0).toNat : Int) := by
  intro p hp
  unfold roundQueue at hp
  rw [List.mem_filterMap] at hp
  obtain ⟨i, hi, hip⟩ := hp
  have hi2 := List.mem_range.mp hi
  have h1 := quantum_pos quanta hpos i hi2
  have h2 := quantum_le_max quanta i hi2
  split at hip
  · cases hip
    simp only [Nat.cast_zero, sub_zero]
    constructor
    · exact h1
    · rw [Int.toNat_of_nonneg (by omega)]
      exact h2
  · cases hip

/-- From the initial state every run of ticks returns, and the workers it
resumes are the first heads met by the queue discipline: one per tick. -/
theorem run_initial_sim (quanta : List Int) (created : Nat → timespec × timespec)
    (clks : List Readings) :
    ∃ s tr, run_ticks (initial quanta created) clks = some (s, tr) ∧
      resumesOf tr = rrSim clks.length (view (initial quanta created)) := by
  cases clks with
  | nil => exact ⟨_, [], rfl, by simp [rrSim, resumesOf]⟩
  | cons c cs =>
    have hs := initial_core quanta created
    obtain ⟨s1, e1, h1, st⟩ := timer_handler_step _ c hs
    obtain ⟨hs1, hst1⟩ := step_core st hs
    obtain ⟨s2, e2, h2, hres⟩ := run_ticks_sim cs s1 hs1 hst1
    refine ⟨s2, e1 ++ e2, run_ticks_cons _ c cs s1 s2 e1 e2 h1 h2, ?_⟩
    rw [resumesOf_append, hres, List.length_cons]
    cases st with
    | idle hq =>
      simp [view, hq, rrSim, resumesOf]
    | first h r hq hc =>
      have hv : view (initial quanta created) =
          (h, ((initial quanta created).info h).quanta) ::
            r.map fun i => (i, ((initial quanta created).info i).quanta) := by
        simp [view, hq]
      have hv1 : view { initial quanta created with
          currentThread := some h
          info := resumedInfo (initial quanta created).info h c.resume_now } =
          view (initial quanta created) := by
        simp only [view, resumedInfo_quanta]
      rw [hv1, hv]
      cases cs with
      | nil => simp [rrSim, resumesOf]
      | cons c2 cs2 => simp [rrSim, resumesOf]
    | rotate h r n hq hc hpos hn => cases hc
    | retire h n r hq hc hle => cases hc
    | last h hq hc hle => cases hc

/-! ## Invariants of a run from the initial state -/

theorem run_ticks_snoc (cs : List Readings) (c : Readings) :
    ∀ (s s1 s2 : Sched) (e1 e2 : List Event), run_ticks s cs = some (s1, e1) →
      timer_handler s1 c = some (s2, e2) → run_ticks s (cs ++ [c]) = some (s2, e1 ++ e2) := by
  induction cs with
  | nil =>
    intro s s1 s2 e1 e2 h1 h2
    simp only [run_ticks, Option.some.injEq, Prod.mk.injEq] at h1
    obtain ⟨rfl, rfl⟩ := h1
    simp [run_ticks, h2]
  | cons a cs ih =>
    intro s s1 s2 e1 e2 h1 h2
    simp only [List.cons_append, run_ticks] at h1 ⊢
    cases ha : timer_handler s a with
    | none => simp [ha] at h1
    | some ra =>
      simp only [ha] at h1 ⊢
      cases hr : run_ticks ra.1 cs with
      | none => simp [hr] at h1
      | some rr =>
        simp only [hr, Option.some.injEq, Prod.mk.injEq] at h1
        obtain ⟨rfl, rfl⟩ := h1
        have e := ih ra.1 rr.1 s2 rr.2 e2 (by rw [hr]) h2
        show (match run_ticks ra.1 (cs ++ [c]) with
          | none => none
          | some r2 => some (r2.1, ra.2 ++ r2.2)) = _
        rw [e]
        simp

theorem inv_initial (quanta : List Int) (created : Nat → timespec × timespec) :
    Inv quanta 0 (initial quanta created) [] where
  core := initial_core quanta created
  tc := rfl
  nonneg := le_refl _
  lt := fun i hi => List.mem_range.mp hi
  started := fun h => absurd h (by decide)
  fresh := fun _ => ⟨rfl, rfl⟩
  quitQ := Or.inl rfl
  quitK := fun h => absurd h (by decide)
  lastRes := fun c hc => by cases hc
  running := rfl
  single := fun j => by simp [runningAfter]
  cancelled := fun i => by simp [initial]
  cancelOnce := fun i => by simp
  reports := by
    by_cases h : 0 < quanta.length
    · have : List.range quanta.length ≠ [] := by
        intro e
        have e2 := congrArg List.length e
        rw [List.length_range, List.length_nil] at e2
        omega
      simp [initial, this, h]
    · simp [h]
  pairs := ⟨[], rfl, rfl⟩
  runSum := by simp [initial, create_workers]
  waitSum := by simp [initial, create_workers]

theorem runningAfter_append (tr ev : List Event) :
    runningAfter (tr ++ ev) = ev.foldl applyEvent (runningAfter tr) := by
  simp [runningAfter, List.foldl_append]

theorem paired_append (P : List Event) :
    ∀ P2 : List Event, paired P = true → paired (P ++ P2) = paired P2 := by
  induction P using paired.induct with
  | case1 => intro P2 _; rfl
  | case2 w v es ih =>
    intro P2 h
    simp only [paired, Bool.and_eq_true, decide_eq_true_eq] at h
    simp only [List.cons_append, paired, h.1, decide_True, Bool.true_and]
    exact ih P2 h.2
  | case3 w v es ih =>
    intro P2 h
    simp only [paired, Bool.and_eq_true, decide_eq_true_eq] at h
    simp only [List.cons_append, paired, h.1, decide_True, Bool.true_and]
    exact ih P2 h.2
  | case4 l h1 h2 h3 =>
    intro P2 h
    rw [paired] at h
    · cases h
    · exact h1
    · exact h2
    · exact h3

theorem directivesOf_append (a b : List Event) :
    directivesOf (a ++ b) = directivesOf a ++ directivesOf b := by
  simp [directivesOf]

theorem step_started_or_fresh {quanta : List Int} {k : Nat} {s : Sched} {tr : List Event}
    (hI : Inv quanta k s tr) : (k = 0 ∧ s.currentThread = none ∧ tr = []) ∨
      (1 ≤ k ∧ s.currentThread = s.sched_queue.head?) := by
  rcases Nat.eq_zero_or_pos k with h | h
  · exact Or.inl ⟨h, hI.fresh h⟩
  · exact Or.inr ⟨h, hI.started h⟩

section StepLemmas

variable {quanta : List Int} {k : Nat} {s s1 : Sched} {tr ev : List Event} {c : Readings}

theorem step_tc (hI : Inv quanta k s tr) (st : Step s c s1 ev) :
    s1.thread_count = quanta.length := by
  cases st <;> exact hI.tc

theorem step_nonneg (hI : Inv quanta k s tr) (st : Step s c s1 ev) : 0 ≤ s1.completed := by
  have hold := hI.nonneg
  cases st <;> dsimp only <;> omega

theorem step_lt (hI : Inv quanta k s tr) (st : Step s c s1 ev) :
    ∀ i ∈ s1.sched_queue, i < quanta.length := by
  have hold := hI.lt
  cases st with
  | idle hq => exact hold
  | first h r hq hc => exact hold
  | rotate h r n hq hc hpos hn =>
    intro i hi
    apply hold i
    rw [hq]
    simp only [List.mem_append, List.mem_singleton] at hi
    rcases hi with hi | hi
    · exact List.mem_cons_of_mem _ hi
    · rw [hi]; exact List.mem_cons_self _ _
  | retire h n r hq hc hle =>
    intro i hi
    apply hold i
    rw [hq]
    exact List.mem_cons_of_mem _ hi
  | last h hq hc hle =>
    intro i hi
    cases hi

theorem step_quitQ (hI : Inv quanta k s tr) (st : Step s c s1 ev) :
    s1.quit = 0 ∨ (s1.quit = 1 ∧ s1.sched_queue = []) := by
  have hold := hI.quitQ
  cases st with
  | idle hq => exact Or.inr ⟨rfl, hq⟩
  | first h r hq hc =>
    rcases hold with h0 | h0
    · exact Or.inl h0
    · rw [hq] at h0; cases h0.2
  | rotate h r n hq hc hpos hn =>
    rcases hold with h0 | h0
    · exact Or.inl h0
    · rw [hq] at h0; cases h0.2
  | retire h n r hq hc hle =>
    rcases hold with h0 | h0
    · exact Or.inl h0
    · rw [hq] at h0; cases h0.2
  | last h hq hc hle => exact Or.inr ⟨rfl, rfl⟩

theorem step_quitK (st : Step s c s1 ev) : s1.sched_queue = [] → s1.quit = 1 := by
  cases st with
  | idle hq => intro _; rfl
  | first h r hq hc => intro e; rw [hq] at e; cases e
  | rotate h r n hq hc hpos hn => intro e; simp at e
  | retire h n r hq hc hle => intro e; cases e
  | last h hq hc hle => intro _; rfl

theorem step_lastRes (hI : Inv quanta k s tr) (st : Step s c s1 ev) :
    ∀ w, s1.currentThread = some w → (resumesOf (tr ++ ev)).getLast? = some w := by
  have hold := hI.lastRes
  rw [resumesOf_append]
  cases st with
  | idle hq => simpa [resumesOf] using hold
  | first h r hq hc => intro w hw; simp at hw; simp [resumesOf, hw]
  | rotate h r n hq hc hpos hn => intro w hw; simp at hw; simp [resumesOf, hw]
  | retire h n r hq hc hle => intro w hw; simp at hw; simp [resumesOf, hw]
  | last h hq hc hle => intro w hw; cases hw

theorem step_running (hI : Inv quanta k s tr) (st : Step s c s1 ev) :
    runningAfter (tr ++ ev) = s1.currentThread.toList := by
  have hold := hI.running
  rw [runningAfter_append, hold]
  cases st with
  | idle hq => rfl
  | first h r hq hc => simp [hc, applyEvent]
  | rotate h r n hq hc hpos hn => simp [hc, applyEvent]
  | retire h n r hq hc hle => simp [hc, applyEvent]
  | last h hq hc hle => simp [hc, applyEvent]

theorem step_single (hI : Inv quanta k s tr) (st : Step s c s1 ev) :
    ∀ j, (runningAfter ((tr ++ ev).take j)).length ≤ 1 := by
  intro j
  rw [List.take_append_eq_append_take]
  by_cases hj : j ≤ tr.length
  · have : j - tr.length = 0 := by omega
    rw [this, List.take_zero, List.append_nil]
    exact hI.single j
  · rw [List.take_of_length_le (by omega), runningAfter_append, hI.running]
    generalize j - tr.length = m
    cases st with
    | idle hq => simp; cases s.currentThread <;> simp
    | first h r hq hc =>
      rcases m with _ | m <;> simp [hc, applyEvent]
    | rotate h r n hq hc hpos hn =>
      rcases m with _ | _ | m <;> simp [hc, applyEvent]
    | retire h n r hq hc hle =>
      rcases m with _ | _ | m <;> simp [hc, applyEvent]
    | last h hq hc hle =>
      rcases m with _ | _ | m <;> simp [hc, applyEvent]

theorem step_cancelled (hI : Inv quanta k s tr) (st : Step s c s1 ev) :
    ∀ i, Event.cancel i ∈ tr ++ ev ↔ (i < quanta.length ∧ i ∉ s1.sched_queue) := by
  intro i
  have hold := hI.cancelled i
  have hlt := hI.lt
  have hnd := hI.core.nodup
  rw [List.mem_append, hold]
  cases st with
  | idle hq => simp
  | first h r hq hc => simp
  | rotate h r n hq hc hpos hn =>
    rw [hq]
    simp only [List.mem_cons, List.mem_append, List.mem_singleton, List.not_mem_nil,
      or_false, false_or, not_or]
    constructor
    · rintro (⟨a, b, d⟩ | h1)
      · exact ⟨a, d, b⟩
      · simp at h1
    · rintro ⟨a, b, d⟩
      exact Or.inl ⟨a, d, b⟩
  | retire h n r hq hc hle =>
    rw [hq] at hnd hlt ⊢
    have hh : h < quanta.length := hlt h (by simp)
    have hn : h ∉ n :: r := (List.nodup_cons.mp hnd).1
    constructor
    · rintro (⟨a, b⟩ | h1)
      · exact ⟨a, fun hm => b (List.mem_cons_of_mem _ hm)⟩
      · simp at h1
        subst h1
        exact ⟨hh, hn⟩
    · rintro ⟨a, b⟩
      by_cases e : i = h
      · right; simp [e]
      · left
        refine ⟨a, ?_⟩
        intro hm
        rcases List.mem_cons.mp hm with hm | hm
        · exact e hm
        · exact b hm
  | last h hq hc hle =>
    rw [hq] at hlt ⊢
    have hh : h < quanta.length := hlt h (by simp)
    constructor
    · rintro (⟨a, _⟩ | h1)
      · exact ⟨a, by simp⟩
      · simp at h1
        subst h1
        exact ⟨hh, by simp⟩
    · rintro ⟨a, _⟩
      by_cases e : i = h
      · right; simp [e]
      · left
        exact ⟨a, by simp [e]⟩

theorem step_cancelOnce (hI : Inv quanta k s tr) (st : Step s c s1 ev) :
    ∀ i, (tr ++ ev).count (Event.cancel i) ≤ 1 := by
  intro i
  have hold := hI.cancelOnce i
  have hc := hI.cancelled i
  rw [List.count_append]
  cases st with
  | idle hq => simpa using hold
  | first h r hq hc => simpa using hold
  | rotate h r n hq hc hpos hn => simpa using hold
  | retire h n r hq hc2 hle =>
    by_cases e : i = h
    · subst e
      have : Event.cancel i ∉ tr := by
        rw [hc, hq]
        simp
      rw [List.count_eq_zero_of_not_mem this]
      simp
    · rw [List.count_eq_zero_of_not_mem (a := Event.cancel i) (l := [_, _]) (by simp [e])]
      exact hold
  | last h hq hc2 hle =>
    by_cases e : i = h
    · subst e
      have : Event.cancel i ∉ tr := by
        rw [hc, hq]
        simp
      rw [List.count_eq_zero_of_not_mem this]
      simp
    · rw [List.count_eq_zero_of_not_mem (a := Event.cancel i) (l := [_, _]) (by simp [e])]
      exact hold

theorem step_reports (hI : Inv quanta k s tr) (st : Step s c s1 ev) :
    (tr ++ ev).count Event.report =
      if s1.sched_queue = [] ∧ 0 < quanta.length then 1 else 0 := by
  have hold := hI.reports
  have hlt := hI.lt
  rw [List.count_append, hold]
  cases st with
  | idle hq => simp
  | first h r hq hc => simp [hq]
  | rotate h r n hq hc hpos hn => simp [hq]
  | retire h n r hq hc hle => simp [hq]
  | last h hq hc hle =>
    have hh : h < quanta.length := hlt h (by simp [hq])
    have : 0 < quanta.length := by omega
    simp [hq, this]

theorem step_pairs (hI : Inv quanta k s tr) (st : Step s c s1 ev) :
    ∃ P, paired P = true ∧
      directivesOf (tr ++ ev) = P ++ s1.currentThread.toList.map Event.resume := by
  obtain ⟨P, hP, hd⟩ := hI.pairs
  rw [directivesOf_append, hd]
  cases st with
  | idle hq => exact ⟨P, hP, by simp [directivesOf]⟩
  | first h r hq hc => exact ⟨P, hP, by simp [directivesOf, hc]⟩
  | rotate h r n hq hc hpos hn =>
    refine ⟨P ++ [Event.resume h, Event.suspend h], ?_, by simp [directivesOf, hc]⟩
    rw [paired_append P _ hP]
    simp [paired]
  | retire h n r hq hc hle =>
    refine ⟨P ++ [Event.resume h, Event.cancel h], ?_, by simp [directivesOf, hc]⟩
    rw [paired_append P _ hP]
    simp [paired]
  | last h hq hc hle =>
    refine ⟨P ++ [Event.resume h, Event.cancel h], ?_, by simp [directivesOf, hc]⟩
    rw [paired_append P _ hP]
    simp [paired]

end StepLemmas

theorem sum_retire (N : Nat) (Q Q2 : List Nat) (f f2 : Nat → Int) (h : Nat) (hh : h < N)
    (hQ : h ∈ Q) (hQ2 : h ∉ Q2) (hmem : ∀ i, i ≠ h → (i ∈ Q2 ↔ i ∈ Q))
    (hf : ∀ i, i ≠ h → i ∉ Q2 → f2 i = f i) :
    (∑ i ∈ Finset.range N, if i ∈ Q2 then 0 else f2 i) =
      (∑ i ∈ Finset.range N, if i ∈ Q then 0 else f i) + f2 h := by
  have hp : ∀ i ∈ Finset.range N, (if i ∈ Q2 then 0 else f2 i) =
      (if i ∈ Q then 0 else f i) + (if i = h then f2 h else 0) := by
    intro i _
    by_cases e : i = h
    · subst e
      simp [hQ, hQ2]
    · by_cases hi : i ∈ Q
      · simp [e, hi, (hmem i e).mpr hi]
      · have hi2 : i ∉ Q2 := fun x => hi ((hmem i e).mp x)
        simp [e, hi, hi2, hf i e hi2]
  rw [Finset.sum_congr rfl hp, Finset.sum_add_distrib, Finset.sum_ite_eq']
  simp [hh]

theorem sum_keep (N : Nat) (Q Q2 : List Nat) (f f2 : Nat → Int)
    (hmem : ∀ i, i ∈ Q2 ↔ i ∈ Q) (hf : ∀ i, i ∉ Q2 → f2 i = f i) :
    (∑ i ∈ Finset.range N, if i ∈ Q2 then 0 else f2 i) =
      ∑ i ∈ Finset.range N, if i ∈ Q then 0 else f i := by
  apply Finset.sum_congr rfl
  intro i _
  by_cases hi : i ∈ Q2
  · simp [hi, (hmem i).mp hi]
  · have hi2 : i ∉ Q := fun x => hi ((hmem i).mpr x)
    simp [hi, hi2, hf i hi]

theorem resumedInfo_wait_other (f : Nat → thread_info_t) (w : Nat) (t : timespec) (j : Nat)
    (hj : j ≠ w) : (resumedInfo f w t j).wait_time = (f j).wait_time := by
  rw [resumedInfo_other f w t j hj]

theorem suspendedInfo_wait_time (s : Sched) (h : Nat) (t : timespec) (j : Nat) :
    (suspendedInfo s h t j).wait_time = (s.info j).wait_time := by
  by_cases hj : j = h <;> simp [suspendedInfo, update_run_time, hj]

section StepSums

variable {quanta : List Int} {k : Nat} {s s1 : Sched} {tr ev : List Event} {c : Readings}

theorem step_runSum (hI : Inv quanta k s tr) (st : Step s c s1 ev) :
    s1.run_times = ∑ i ∈ Finset.range quanta.length,
      if i ∈ s1.sched_queue then 0 else (s1.info i).run_time := by
  have hold := hI.runSum
  have hlt := hI.lt
  have hnd := hI.core.nodup
  cases st with
  | idle hq => exact hold
  | first h r hq hc =>
    simp only [resumedInfo_run_time]
    exact hold
  | rotate h r n hq hc hpos hn =>
    dsimp only
    simp only [resumedInfo_run_time]
    rw [hold, hq]
    symm
    apply sum_keep
    · intro i; simp [or_comm]
    · intro i hi
      rw [suspendedInfo_other]
      rintro rfl
      simp at hi
  | retire h n r hq hc hle =>
    dsimp only
    simp only [resumedInfo_run_time]
    rw [hold, hq]
    rw [hq] at hnd hlt
    symm
    apply sum_retire _ _ _ _ _ h (hlt h (by simp)) (by simp) (List.nodup_cons.mp hnd).1
    · intro i e; simp [e]
    · intro i e _
      rw [suspendedInfo_other _ _ _ _ e]
  | last h hq hc hle =>
    dsimp only
    rw [hold, hq]
    rw [hq] at hlt
    symm
    apply sum_retire _ _ _ _ _ h (hlt h (by simp)) (by simp) (by simp)
    · intro i e; simp [e]
    · intro i e _
      rw [suspendedInfo_other _ _ _ _ e]

theorem step_waitSum (hI : Inv quanta k s tr) (st : Step s c s1 ev) :
    s1.wait_times = ∑ i ∈ Finset.range quanta.length,
      if i ∈ s1.sched_queue then 0 else (s1.info i).wait_time := by
  have hold := hI.waitSum
  have hlt := hI.lt
  have hnd := hI.core.nodup
  cases st with
  | idle hq => exact hold
  | first h r hq hc =>
    dsimp only
    rw [hold]
    symm
    apply sum_keep
    · intro i; rfl
    · intro i hi
      rw [hq] at hi
      rw [resumedInfo_other]
      rintro rfl
      simp at hi
  | rotate h r n hq hc hpos hn =>
    dsimp only
    rw [hold, hq]
    symm
    have hnm : n ∈ r ++ [h] := by
      cases r with
      | nil => simp at hn; simp [hn]
      | cons a l => simp at hn; simp [hn]
    apply sum_keep
    · intro i; simp [or_comm]
    · intro i hi
      rw [resumedInfo_other, suspendedInfo_wait_time]
      rintro rfl
      exact hi hnm
  | retire h n r hq hc hle =>
    dsimp only
    rw [hold, hq]
    rw [hq] at hnd hlt
    have hne : h ≠ n := by
      rintro rfl
      exact (List.nodup_cons.mp hnd).1 (by simp)
    have e : (suspendedInfo s h c.suspend_now h).wait_time =
        (resumedInfo (suspendedInfo s h c.suspend_now) n c.resume_now h).wait_time := by
      rw [resumedInfo_other _ _ _ _ hne]
    rw [e]
    symm
    apply sum_retire _ _ _ _ _ h (hlt h (by simp)) (by simp) (List.nodup_cons.mp hnd).1
    · intro i e; simp [e]
    · intro i e hi
      rw [resumedInfo_other, suspendedInfo_wait_time]
      rintro rfl
      simp at hi
  | last h hq hc hle =>
    dsimp only
    rw [hold, hq]
    rw [hq] at hlt
    symm
    apply sum_retire _ _ _ _ _ h (hlt h (by simp)) (by simp) (by simp)
    · intro i e; simp [e]
    · intro i e _
      rw [suspendedInfo_wait_time]

end StepSums

theorem inv_step {quanta : List Int} {k : Nat} {s s1 : Sched} {tr ev : List Event}
    {c : Readings} (hI : Inv quanta k s tr) (st : Step s c s1 ev) :
    Inv quanta (k + 1) s1 (tr ++ ev) where
  core := (step_core st hI.core).1
  tc := step_tc hI st
  nonneg := step_nonneg hI st
  lt := step_lt hI st
  started := fun _ => (step_core st hI.core).2
  fresh := fun h => absurd h (Nat.succ_ne_zero k)
  quitQ := step_quitQ hI st
  quitK := fun _ => step_quitK st
  lastRes := step_lastRes hI st
  running := step_running hI st
  single := step_single hI st
  cancelled := step_cancelled hI st
  cancelOnce := step_cancelOnce hI st
  reports := step_reports hI st
  pairs := step_pairs hI st
  runSum := step_runSum hI st
  waitSum := step_waitSum hI st

/-- Every run of ticks from the initial state returns, in a state and with a
trace that satisfy the invariants. -/
theorem reach (quanta : List Int) (created : Nat → timespec × timespec)
    (clks : List Readings) :
    ∃ s tr, run_ticks (initial quanta created) clks = some (s, tr) ∧
      Inv quanta clks.length s tr := by
  induction clks using List.reverseRecOn with
  | nil => exact ⟨_, [], rfl, inv_initial quanta created⟩
  | append_singleton cs c ih =>
    obtain ⟨s, tr, hrun, hI⟩ := ih
    obtain ⟨s1, ev, h1, st⟩ := timer_handler_step s c hI.core
    refine ⟨s1, tr ++ ev, run_ticks_snoc cs c _ s s1 tr ev hrun h1, ?_⟩
    rw [List.length_append, List.length_singleton]
    exact inv_step hI st

/-! ## Invariants that need positive quanta -/

theorem map_quantum_range (quanta : List Int) :
    (List.range quanta.length).map (quantum quanta) = quanta := by
  apply List.ext_getElem
  · simp
  · intro i h1 h2
    rw [List.getElem_map, List.getElem_range]
    exact List.getD_eq_getElem _ _ h2

theorem weight_initial (quanta : List Int) (created : Nat → timespec × timespec) :
    weightQ (view (initial quanta created)) = quanta.sum := by
  have : (view (initial quanta created)).map Prod.snd =
      (List.range quanta.length).map (quantum quanta) := by
    simp [view, initial, create_workers]
  rw [weightQ, this, map_quantum_range]

theorem weight_rrNext (p : Nat × Int) (t : List (Nat × Int)) (hp : 0 < p.2) :
    weightQ (rrNext (p :: t)) + 1 = weightQ (p :: t) := by
  obtain ⟨i, q⟩ := p
  have hd : int_decrement q = q - 1 := int_decrement_of_pos hp
  simp only [rrNext, weightQ, hd]
  by_cases h : 0 < q - 1
  · simp only [h, if_true, List.map_append, List.map_cons, List.map_nil, List.sum_append,
      List.sum_cons, List.sum_nil]
    omega
  · simp only [h, if_false, List.map_cons, List.sum_cons]
    simp only at hp
    omega

theorem posInv_initial (quanta : List Int) (created : Nat → timespec × timespec)
    (hpos : ∀ x ∈ quanta, 0 < x) : PosInv quanta 0 (initial quanta created) [] where
  pos := fun i hi => quantum_pos quanta hpos i (List.mem_range.mp hi)
  time := Or.inl ⟨rfl, weight_initial quanta created⟩
  resumeCount := by
    intro i hi
    have : i ∈ (initial quanta created).sched_queue := List.mem_range.mpr hi
    simp [this]
    simp [initial, create_workers]

section PosStep

variable {quanta : List Int} {k : Nat} {s s1 : Sched} {tr ev : List Event} {c : Readings}

theorem step_pos (hI : Inv quanta k s tr) (hP : PosInv quanta k s tr) (st : Step s c s1 ev) :
    ∀ i ∈ s1.sched_queue, 0 < (s1.info i).quanta := by
  have hold := hP.pos
  have hnd := hI.core.nodup
  cases st with
  | idle hq => exact hold
  | first h r hq hc =>
    intro i hi
    dsimp only at hi ⊢
    rw [resumedInfo_quanta]
    exact hold i hi
  | rotate h r n hq hc hpos hn =>
    intro i hi
    dsimp only at hi ⊢
    rw [resumedInfo_quanta]
    by_cases e : i = h
    · subst e
      rw [suspendedInfo_quanta_self]
      exact hpos
    · rw [suspendedInfo_other _ _ _ _ e]
      apply hold i
      rw [hq]
      simp only [List.mem_append, List.mem_singleton] at hi
      rcases hi with hi | hi
      · exact List.mem_cons_of_mem _ hi
      · exact absurd hi e
  | retire h n r hq hc hle =>
    intro i hi
    dsimp only at hi ⊢
    rw [hq] at hnd
    have e : i ≠ h := by
      rintro rfl
      exact (List.nodup_cons.mp hnd).1 hi
    rw [resumedInfo_quanta, suspendedInfo_other _ _ _ _ e]
    apply hold i
    rw [hq]
    exact List.mem_cons_of_mem _ hi
  | last h hq hc hle =>
    intro i hi
    cases hi

theorem view_ne_nil_head (hq : s.sched_queue ≠ []) (hP : PosInv quanta k s tr) :
    ∃ p t, view s = p :: t ∧ 0 < p.2 := by
  cases hs : s.sched_queue with
  | nil => exact absurd hs hq
  | cons a l =>
    refine ⟨(a, (s.info a).quanta), l.map fun i => (i, (s.info i).quanta), ?_, ?_⟩
    · simp [view, hs]
    · exact hP.pos a (by simp [hs])

theorem step_time (hI : Inv quanta k s tr) (hP : PosInv quanta k s tr) (st : Step s c s1 ev) :
    (k + 1 = 0 ∧ weightQ (view s1) = quanta.sum) ∨
    (1 ≤ k + 1 ∧ s1.sched_queue ≠ [] ∧ weightQ (view s1) + (k + 1 : Nat) = quanta.sum + 1) ∨
    (1 ≤ k + 1 ∧ quanta.sum + 1 ≤ (k + 1 : Nat) ∧ s1.sched_queue = []) := by
  have hold := hP.time
  rcases step_started_or_fresh hI with ⟨hk, hc0, _⟩ | ⟨hk, hst⟩
  · -- the first tick
    have hw : weightQ (view s) = quanta.sum := by
      rcases hold with h1 | h1 | h1
      · exact h1.2
      · omega
      · omega
    cases st with
    | idle hq =>
      right; right
      have : weightQ (view s) = 0 := by simp [view, hq, weightQ]
      refine ⟨by omega, ?_, hq⟩
      push_cast
      omega
    | first h r hq hc =>
      right; left
      refine ⟨by omega, by simp [hq], ?_⟩
      have : view { s with
          currentThread := some h
          info := resumedInfo s.info h c.resume_now } = view s := by
        simp only [view, resumedInfo_quanta]
      rw [this, hw, hk]
      simp
    | rotate h r n hq hc hpos hn => rw [hc0] at hc; cases hc
    | retire h n r hq hc hle => rw [hc0] at hc; cases hc
    | last h hq hc hle => rw [hc0] at hc; cases hc
  · obtain ⟨hv, _⟩ := step_view st hI.core hst
    by_cases hq : s.sched_queue = []
    · -- nothing left: the tick is idle
      right; right
      have hq1 : s1.sched_queue = [] := by
        cases st with
        | idle _ => exact hq
        | first h r hq2 hc => rw [hq2] at hq; cases hq
        | rotate h r n hq2 hc hpos hn => rw [hq2] at hq; cases hq
        | retire h n r hq2 hc hle => rw [hq2] at hq; cases hq
        | last h hq2 hc hle => rfl
      refine ⟨by omega, ?_, hq1⟩
      rcases hold with h1 | h1 | h1
      · omega
      · exact absurd hq h1.2.1
      · push_cast; omega
    · obtain ⟨p, t, hvs, hp⟩ := view_ne_nil_head hq hP
      have hw := weight_rrNext p t hp
      rw [← hvs, ← hv] at hw
      have hsum : weightQ (view s) + k = quanta.sum + 1 := by
        rcases hold with h1 | h1 | h1
        · omega
        · exact h1.2.2
        · exact absurd h1.2.2 hq
      by_cases hq1 : s1.sched_queue = []
      · right; right
        refine ⟨by omega, ?_, hq1⟩
        have : weightQ (view s1) = 0 := by simp [view, hq1, weightQ]
        push_cast
        omega
      · right; left
        refine ⟨by omega, hq1, ?_⟩
        push_cast
        omega

theorem count_resume_one (i h : Nat) :
    List.count (Event.resume i) [Event.resume h] = if h = i then 1 else 0 := by
  by_cases e : h = i <;> simp [List.count_cons, e]

theorem count_resume_suspend (i h n : Nat) :
    List.count (Event.resume i) [Event.suspend h, Event.resume n] = if n = i then 1 else 0 := by
  by_cases e : n = i <;> simp [List.count_cons, e]

theorem count_resume_cancel (i h n : Nat) :
    List.count (Event.resume i) [Event.cancel h, Event.resume n] = if n = i then 1 else 0 := by
  by_cases e : n = i <;> simp [List.count_cons, e]

theorem count_resume_last (i h : Nat) :
    List.count (Event.resume i) [Event.cancel h, Event.report] = 0 := by
  simp [List.count_cons]

theorem step_resumeCount (hI : Inv quanta k s tr) (hP : PosInv quanta k s tr)
    (st : Step s c s1 ev) : ∀ i, i < quanta.length →
      (((tr ++ ev).count (Event.resume i) : Nat) : Int) =
        quantum quanta i - (if i ∈ s1.sched_queue then (s1.info i).quanta else 0)
          + (if s1.currentThread = some i then 1 else 0) := by
  intro i hi
  have hold := hP.resumeCount i hi
  have hnd := hI.core.nodup
  have hpo := hP.pos
  rw [List.count_append]
  push_cast
  rw [hold]
  cases st with
  | idle hq => simp
  | first h r hq hc =>
    dsimp only
    simp only [resumedInfo_quanta, hc, count_resume_one]
    by_cases e : h = i <;> simp [e]
  | rotate h r n hq hc hpos hn =>
    dsimp only
    rw [hq] at hnd
    have hnr : h ∉ r := (List.nodup_cons.mp hnd).1
    simp only [resumedInfo_quanta, hc, hq, count_resume_suspend]
    have hd := int_decrement_of_pos (hpo h (by simp [hq]))
    by_cases e : i = h
    · subst e
      simp only [suspendedInfo_quanta_self, hd]
      by_cases e2 : n = i <;> simp [e2] <;> omega
    · have e3 : h ≠ i := fun x => e x.symm
      rw [suspendedInfo_other _ _ _ _ e]
      by_cases e2 : n = i <;> by_cases hm : i ∈ r <;> simp [e, e2, e3, hm]
  | retire h n r hq hc hle =>
    dsimp only
    rw [hq] at hnd
    have hnr : h ∉ n :: r := (List.nodup_cons.mp hnd).1
    have hq1 : (s.info h).quanta = 1 := by
      have := hpo h (by simp [hq])
      have hd := int_decrement_of_pos this
      omega
    simp only [resumedInfo_quanta, hc, hq, count_resume_cancel]
    by_cases e : i = h
    · subst e
      have e2 : n ≠ i := by
        rintro rfl
        exact hnr (by simp)
      simp [hnr, e2, hq1]
    · have e3 : h ≠ i := fun x => e x.symm
      rw [suspendedInfo_other _ _ _ _ e]
      have hm : i ∈ h :: n :: r ↔ i ∈ n :: r := by simp [e]
      by_cases hm2 : i ∈ n :: r
      · rw [if_pos (hm.mpr hm2), if_pos hm2]
        by_cases e2 : n = i <;> simp [e2, e3]
      · rw [if_neg (fun x => hm2 (hm.mp x)), if_neg hm2]
        by_cases e2 : n = i <;> simp [e2, e3]
  | last h hq hc hle =>
    dsimp only
    have hq1 : (s.info h).quanta = 1 := by
      have := hpo h (by simp [hq])
      have hd := int_decrement_of_pos this
      omega
    simp only [hc, hq, count_resume_last]
    by_cases e : i = h
    · subst e
      simp [hq1]
    · have e3 : h ≠ i := fun x => e x.symm
      simp [e, e3]

theorem posInv_step (hI : Inv quanta k s tr) (hP : PosInv quanta k s tr)
    (st : Step s c s1 ev) : PosInv quanta (k + 1) s1 (tr ++ ev) where
  pos := step_pos hI hP st
  time := step_time hI hP st
  resumeCount := step_resumeCount hI hP st

end PosStep

/-- Every run of ticks from the initial state with positive quanta returns, in a
state and with a trace that satisfy both families of invariants. -/
theorem reachPos (quanta : List Int) (created : Nat → timespec × timespec)
    (hpos : ∀ x ∈ quanta, 0 < x) (clks : List Readings) :
    ∃ s tr, run_ticks (initial quanta created) clks = some (s, tr) ∧
      Inv quanta clks.length s tr ∧ PosInv quanta clks.length s tr := by
  induction clks using List.reverseRecOn with
  | nil => exact ⟨_, [], rfl, inv_initial quanta created, posInv_initial quanta created hpos⟩
  | append_singleton cs c ih =>
    obtain ⟨s, tr, hrun, hI, hP⟩ := ih
    obtain ⟨s1, ev, h1, st⟩ := timer_handler_step s c hI.core
    refine ⟨s1, tr ++ ev, run_ticks_snoc cs c _ s s1 tr ev hrun h1, ?_⟩
    rw [List.length_append, List.length_singleton]
    exact ⟨inv_step hI st, posInv_step hI hP st⟩

/-! ## Consequences of the invariants -/

theorem weight_nonneg (Q : List (Nat × Int)) (hQ : ∀ p ∈ Q, 0 < p.2) : 0 ≤ weightQ Q := by
  induction Q with
  | nil => simp [weightQ]
  | cons p t ih =>
    have h1 := hQ p (by simp)
    have h2 := ih (fun x hx => hQ x (by simp [hx]))
    simp only [weightQ, List.map_cons, List.sum_cons] at h2 ⊢
    omega

theorem weight_pos (Q : List (Nat × Int)) (hQ : ∀ p ∈ Q, 0 < p.2) (hne : Q ≠ []) :
    0 < weightQ Q := by
  cases Q with
  | nil => exact absurd rfl hne
  | cons p t =>
    have h1 := hQ p (by simp)
    have h2 := weight_nonneg t (fun x hx => hQ x (by simp [hx]))
    simp only [weightQ, List.map_cons, List.sum_cons] at h2 ⊢
    omega

theorem weight_dec (Q : List (Nat × Int)) (hQ : ∀ p ∈ Q, 0 < p.2) :
    weightQ (Q.filterMap rrDec) + Q.length = weightQ Q := by
  induction Q with
  | nil => simp [weightQ]
  | cons p t ih =>
    have h1 := hQ p (by simp)
    have h2 := ih (fun x hx => hQ x (by simp [hx]))
    have hd := int_decrement_of_pos h1
    by_cases h : 0 < p.2 - 1
    · simp only [List.filterMap_cons, rrDec, hd, h, if_true, weightQ, List.map_cons, List.sum_cons,
        List.length_cons] at h2 ⊢
      push_cast
      omega
    · simp only [List.filterMap_cons, rrDec, hd, h, if_false, weightQ, List.map_cons,
        List.sum_cons, List.length_cons] at h2 ⊢
      push_cast
      omega

theorem rrDec_bound (R : Nat) (Q : List (Nat × Int))
    (hQ : ∀ p ∈ Q, 0 < p.2 ∧ p.2 ≤ ((R + 1 : Nat) : Int)) :
    ∀ p ∈ Q.filterMap rrDec, 0 < p.2 ∧ p.2 ≤ (R : Int) := by
  intro p hp
  rw [List.mem_filterMap] at hp
  obtain ⟨a, ha, hap⟩ := hp
  have := hQ a ha
  have hd := int_decrement_of_pos this.1
  unfold rrDec at hap
  split at hap
  · cases hap
    simp only
    push_cast at this
    omega
  · cases hap

theorem length_rrRounds (R : Nat) :
    ∀ Q : List (Nat × Int), (∀ p ∈ Q, 0 < p.2 ∧ p.2 ≤ (R : Int)) →
      ((rrRounds R Q).length : Int) = weightQ Q := by
  induction R with
  | zero =>
    intro Q hQ
    cases Q with
    | nil => simp [rrRounds, weightQ]
    | cons p t =>
      have := hQ p (by simp)
      simp only [Nat.cast_zero] at this
      omega
  | succ R ih =>
    intro Q hQ
    have h1 := ih _ (rrDec_bound R Q hQ)
    have h2 := weight_dec Q (fun p hp => (hQ p hp).1)
    rw [rrRounds, List.length_append, List.length_map]
    push_cast
    omega

theorem length_rrReference (quanta : List Int) (hpos : ∀ x ∈ quanta, 0 < x) :
    ((rrReference quanta).length : Int) = quanta.sum := by
  rw [rrReference_eq_rounds, length_rrRounds _ _ (roundQueue_bound quanta hpos)]
  have := view_initial quanta (fun _ => (⟨0, 0⟩, ⟨0, 0⟩)) hpos
  rw [← this, weight_initial]

theorem sum_pos_of_pos (quanta : List Int) (hN : 1 ≤ quanta.length)
    (hpos : ∀ x ∈ quanta, 0 < x) : 0 < quanta.sum := by
  have h := weight_initial quanta (fun _ => (⟨0, 0⟩, ⟨0, 0⟩))
  have hv := view_initial quanta (fun _ => (⟨0, 0⟩, ⟨0, 0⟩)) hpos
  rw [← h]
  apply weight_pos
  · rw [hv]
    intro p hp
    exact (roundQueue_bound quanta hpos p hp).1
  · intro e
    have e2 := congrArg List.length e
    simp only [view, initial, List.length_map, List.length_range, List.length_nil] at e2
    omega

theorem sum_nonneg_of_pos (quanta : List Int) (hpos : ∀ x ∈ quanta, 0 < x) :
    0 ≤ quanta.sum :=
  List.sum_nonneg fun x hx => le_of_lt (hpos x hx)

theorem view_pos {quanta : List Int} {k : Nat} {s : Sched} {tr : List Event}
    (hP : PosInv quanta k s tr) : ∀ p ∈ view s, 0 < p.2 := by
  intro p hp
  simp only [view, List.mem_map] at hp
  obtain ⟨i, hi, rfl⟩ := hp
  exact hP.pos i hi

/-- With positive quanta the queue is empty exactly from tick `sum + 1` on. -/
theorem queue_empty_iff {quanta : List Int} {k : Nat} {s : Sched} {tr : List Event}
    (hpos : ∀ x ∈ quanta, 0 < x) (hN : 1 ≤ quanta.length)
    (hP : PosInv quanta k s tr) : s.sched_queue = [] ↔ quanta.sum + 1 ≤ k := by
  have hs := sum_pos_of_pos quanta hN hpos
  constructor
  · intro hq
    rcases hP.time with h1 | h1 | h1
    · have : weightQ (view s) = 0 := by simp [view, hq, weightQ]
      omega
    · exact absurd hq h1.2.1
    · exact h1.2.1
  · intro hk
    rcases hP.time with h1 | h1 | h1
    · omega
    · have hv : view s ≠ [] := by
        intro e
        apply h1.2.1
        simpa [view] using e
      have := weight_pos (view s) (view_pos hP) hv
      omega
    · exact h1.2.2

theorem current_none_of_empty {s : Sched} (hs : Core s) (hq : s.sched_queue = []) :
    s.currentThread = none := by
  rcases hs.cur with h | h
  · exact h
  · rw [h, hq]; rfl

theorem completed_eq {quanta : List Int} {k : Nat} {s : Sched} {tr : List Event}
    (hI : Inv quanta k s tr) : s.completed + s.sched_queue.length = quanta.length := by
  rw [← hI.tc]
  exact hI.core.count

/-! ## The claims -/

/-- C1 (round-robin order). For positive quanta, every run of ticks from the
initial state returns, and the workers passed to `resume_worker` are the first
`clks.length` entries of the reference round-robin order; once the run has at
least as many ticks as the sum of the quanta they are the whole reference
order. -/
theorem C1_round_robin_order (quanta : List Int) (created : Nat → timespec × timespec)
    (clks : List Readings) (hpos : ∀ x ∈ quanta, 0 < x) :
    ∃ s tr, run_ticks (initial quanta created) clks = some (s, tr) ∧
      resumesOf tr = (rrReference quanta).take clks.length ∧
      (quanta.sum ≤ clks.length → resumesOf tr = rrReference quanta) := by
  obtain ⟨s, tr, hrun, hres⟩ := run_initial_sim quanta created clks
  have h1 : resumesOf tr = (rrReference quanta).take clks.length := by
    rw [hres, view_initial quanta created hpos, rrReference_eq_rounds]
    exact rrSim_eq_rounds _ _ _ (roundQueue_bound quanta hpos)
  refine ⟨s, tr, hrun, h1, ?_⟩
  intro hlen
  rw [h1]
  apply List.take_of_length_le
  have := length_rrReference quanta hpos
  omega

/-- C1 at the two inputs of the specification: quanta `[2,1]` resume A, B, A and
quanta `[1,1,1]` resume worker 0, worker 1, worker 2. -/
theorem C1_round_robin_order_witness :
    (∃ s tr, run_ticks (initial [2, 1] created0) (ticks 4) = some (s, tr) ∧
      resumesOf tr = [0, 1, 0]) ∧
    (∃ s tr, run_ticks (initial [1, 1, 1] created0) (ticks 4) = some (s, tr) ∧
      resumesOf tr = [0, 1, 2]) := by
  constructor
  · obtain ⟨s, tr, h1, _, h3⟩ := C1_round_robin_order [2, 1] created0 (ticks 4) (by decide)
    exact ⟨s, tr, h1, by rw [h3 (by decide)]; decide⟩
  · obtain ⟨s, tr, h1, _, h3⟩ := C1_round_robin_order [1, 1, 1] created0 (ticks 4) (by decide)
    exact ⟨s, tr, h1, by rw [h3 (by decide)]; decide⟩

/-- C3, as stated, fails for one worker with quanta `[1]`: the sum of the quanta
is 1, and neither after no tick nor after one tick is `completed` equal to 1 and
`quit` set; the first tick only resumes worker 0. -/
theorem C3_termination_counterexample :
    ([1] : List Int).sum = 1 ∧
    (run_ticks (initial [1] created0) (ticks 0)).map
      (fun r => (r.1.completed, r.1.quit, r.2)) = some (0, 0, []) ∧
    (run_ticks (initial [1] created0) (ticks 1)).map
      (fun r => (r.1.completed, r.1.quit, r.2)) = some (0, 0, [Event.resume 0]) := by
  decide

/-- C3 (termination, amended). For `N >= 1` workers with positive quanta every
run of ticks returns; after `sum + 1` ticks or more `completed` is `N` and
`quit` is 1, and after `sum` ticks or fewer `completed` is below `N` and `quit`
is still 0. -/
theorem C3_termination (quanta : List Int) (created : Nat → timespec × timespec)
    (clks : List Readings) (hN : 1 ≤ quanta.length) (hpos : ∀ x ∈ quanta, 0 < x) :
    ∃ s tr, run_ticks (initial quanta created) clks = some (s, tr) ∧
      (quanta.sum + 1 ≤ clks.length → s.completed = quanta.length ∧ s.quit = 1) ∧
      ((clks.length : Int) ≤ quanta.sum → s.completed < quanta.length ∧ s.quit = 0) := by
  obtain ⟨s, tr, hrun, hI, hP⟩ := reachPos quanta created hpos clks
  have hiff := queue_empty_iff hpos hN hP
  have hcnt := completed_eq hI
  refine ⟨s, tr, hrun, ?_, ?_⟩
  · intro hk
    have hq := hiff.mpr hk
    have h1 : 1 ≤ clks.length := by
      have := sum_nonneg_of_pos quanta hpos
      omega
    refine ⟨?_, hI.quitK h1 hq⟩
    rw [hq] at hcnt
    simpa using hcnt
  · intro hk
    have hq : s.sched_queue ≠ [] := fun e => by
      have := hiff.mp e
      omega
    have hl : 0 < s.sched_queue.length := List.length_pos.mpr hq
    constructor
    · omega
    · rcases hI.quitQ with h | h
      · exact h
      · exact absurd h.2 hq

/-- C3 (amended) at quanta `[1]`: two ticks finish the run. -/
theorem C3_termination_witness :
    ∃ s tr, run_ticks (initial [1] created0) (ticks 2) = some (s, tr) ∧
      s.completed = 1 ∧ s.quit = 1 := by
  obtain ⟨s, tr, h1, h2, _⟩ := C3_termination [1] created0 (ticks 2) (by decide) (by decide)
  exact ⟨s, tr, h1, h2 (by decide)⟩

/-- C4 (single runner). For any quanta and any run of ticks from the initial
state followed by one more tick: both return; at every point of the trace at
most one worker has been resumed and not yet suspended or cancelled; and if
the tick resumes a worker then either no worker was resumed before, or the
tick first sends a suspend or a cancel to the worker that was resumed last. -/
theorem C4_single_runner (quanta : List Int) (created : Nat → timespec × timespec)
    (clks : List Readings) (c : Readings) :
    ∃ s tr s1 ev, run_ticks (initial quanta created) clks = some (s, tr) ∧
      timer_handler s c = some (s1, ev) ∧
      (∀ j, (runningAfter ((tr ++ ev).take j)).length ≤ 1) ∧
      (∀ n, Event.resume n ∈ ev →
        resumesOf tr = [] ∨
        ∃ w, (resumesOf tr).getLast? = some w ∧
          (ev.head? = some (Event.suspend w) ∨ ev.head? = some (Event.cancel w))) := by
  obtain ⟨s, tr, hrun, hI⟩ := reach quanta created clks
  obtain ⟨s1, ev, h1, st⟩ := timer_handler_step s c hI.core
  refine ⟨s, tr, s1, ev, hrun, h1, (inv_step hI st).single, ?_⟩
  intro n hn
  cases st with
  | idle hq => cases hn
  | first h r hq hc =>
    left
    rcases step_started_or_fresh hI with ⟨_, _, ht⟩ | ⟨_, hst⟩
    · rw [ht]; rfl
    · rw [hc, hq] at hst; cases hst
  | rotate h r m hq hc hpos hm =>
    right
    exact ⟨h, hI.lastRes h hc, Or.inl rfl⟩
  | retire h m r hq hc hle =>
    right
    exact ⟨h, hI.lastRes h hc, Or.inr rfl⟩
  | last h hq hc hle => simp at hn

/-- C5 (statistics consistency). After a complete run with positive quanta,
`completed` equals `thread_count`, `run_times` is the sum of the workers' final
`run_time` and `wait_times` the sum of their final `wait_time`. -/
theorem C5_statistics_consistency (quanta : List Int)
    (created : Nat → timespec × timespec) (clks : List Readings)
    (hpos : ∀ x ∈ quanta, 0 < x) (hlen : quanta.sum + 1 ≤ clks.length) :
    ∃ s tr, run_ticks (initial quanta created) clks = some (s, tr) ∧
      s.completed = s.thread_count ∧
      s.run_times = ∑ i ∈ Finset.range quanta.length, (s.info i).run_time ∧
      s.wait_times = ∑ i ∈ Finset.range quanta.length, (s.info i).wait_time := by
  obtain ⟨s, tr, hrun, hI, hP⟩ := reachPos quanta created hpos clks
  have hsum := sum_nonneg_of_pos quanta hpos
  have hq : s.sched_queue = [] := by
    rcases hP.time with h1 | h1 | h1
    · omega
    · have hv : view s ≠ [] := by
        intro e
        apply h1.2.1
        simpa [view] using e
      have := weight_pos (view s) (view_pos hP) hv
      omega
    · exact h1.2.2
  have hcnt := hI.core.count
  have hr := hI.runSum
  have hw := hI.waitSum
  rw [hq] at hcnt hr hw
  refine ⟨s, tr, hrun, by simpa using hcnt, ?_, ?_⟩
  · simpa using hr
  · simpa using hw

/-- C5 at quanta `[2,1]` and five ticks one second apart: the totals are the
sums of the two workers' times. -/
theorem C5_statistics_consistency_witness :
    ∃ s tr, run_ticks (initial [2, 1] created0) (ticks 5) = some (s, tr) ∧
      s.completed = s.thread_count ∧
      s.run_times = ∑ i ∈ Finset.range 2, (s.info i).run_time ∧
      s.wait_times = ∑ i ∈ Finset.range 2, (s.info i).wait_time :=
  C5_statistics_consistency [2, 1] created0 (ticks 5) (by decide) (by decide)

/-- C6, as stated, fails: in the state reached by two ticks from quanta `[1]`
worker 0 has quanta 0 and has been cancelled once (`completed` 1, `run_times`
one second), and a second `cancel_worker` on it sends a second cancel
directive, counts it again (`completed` 2) and adds its run time again. -/
theorem C6_idempotent_cancellation_counterexample :
    (run_ticks (initial [1] created0) (ticks 2)).map
      (fun r => ((r.1.info 0).quanta, r.2, r.1.completed, r.1.run_times, r.1.wait_times)) =
      some (0, [Event.resume 0, Event.cancel 0, Event.report], 1, 1000000, 1000000) ∧
    (run_ticks (initial [1] created0) (ticks 2)).map
      (fun r => ((cancel_worker r.1 0).1.completed, (cancel_worker r.1 0).1.run_times,
        (cancel_worker r.1 0).1.wait_times, (cancel_worker r.1 0).2)) =
      some (2, 2000000, 2000000, [Event.cancel 0, Event.report]) := by
  decide

/-- C6 (cancellation, amended). `cancel_worker` has no guard: every application
sends a cancel directive, adds the worker's times to the totals and increments
`completed`. What holds instead is that a run of ticks from the initial state
applies it at most once per worker: the trace holds at most one cancel
directive for each worker. -/
theorem C6_cancel_at_most_once (quanta : List Int) (created : Nat → timespec × timespec)
    (clks : List Readings) :
    (∀ (s : Sched) (w : Nat),
      (cancel_worker s w).1.completed = s.completed + 1 ∧
      (cancel_worker s w).1.run_times = s.run_times + (s.info w).run_time ∧
      (cancel_worker s w).1.wait_times = s.wait_times + (s.info w).wait_time ∧
      Event.cancel w ∈ (cancel_worker s w).2) ∧
    ∃ s tr, run_ticks (initial quanta created) clks = some (s, tr) ∧
      ∀ i, tr.count (Event.cancel i) ≤ 1 := by
  constructor
  · intro s w
    rw [cancel_worker_eq]
    refine ⟨rfl, rfl, rfl, ?_⟩
    dsimp only
    split <;> simp
  · obtain ⟨s, tr, hrun, hI⟩ := reach quanta created clks
    exact ⟨s, tr, hrun, hI.cancelOnce⟩

/-- C7, as stated, fails: after the first tick from quanta `[2,1]` worker 0 is
the running worker and is still in `sched_queue`, at its head. -/
theorem C7_run_queue_counterexample :
    (run_ticks (initial [2, 1] created0) (ticks 1)).map
      (fun r => (r.1.currentThread, r.1.sched_queue, r.2)) =
      some (some 0, [0, 1], [Event.resume 0]) := by
  decide

/-- C7 (run-queue invariant, amended). In every state reached by ticks from the
initial state the queue has no duplicates and holds only workers, a worker is
in the queue if and only if it has not been sent a cancel directive, and the
running worker (`currentThread`) is the head of the queue. -/
theorem C7_run_queue (quanta : List Int) (created : Nat → timespec × timespec)
    (clks : List Readings) :
    ∃ s tr, run_ticks (initial quanta created) clks = some (s, tr) ∧
      s.sched_queue.Nodup ∧
      (∀ i ∈ s.sched_queue, i < quanta.length) ∧
      (∀ i, i < quanta.length → (i ∈ s.sched_queue ↔ Event.cancel i ∉ tr)) ∧
      (∀ w, s.currentThread = some w → s.sched_queue.head? = some w) := by
  obtain ⟨s, tr, hrun, hI⟩ := reach quanta created clks
  refine ⟨s, tr, hrun, hI.core.nodup, hI.lt, ?_, ?_⟩
  · intro i hi
    have := hI.cancelled i
    constructor
    · intro hm hc
      exact (this.mp hc).2 hm
    · intro hc
      by_contra hm
      exact hc (this.mpr ⟨hi, hm⟩)
  · intro w hw
    rcases hI.core.cur with h | h
    · rw [h] at hw; cases hw
    · rw [← h, hw]

/-- C8 (completed-count invariant). For any quanta: `completed` starts at 0; in
every state reached by ticks from the initial state it is between 0 and
`thread_count`; one more tick returns, does not decrease it, increases it by at
most 1 and keeps it at most `thread_count`; and a worker cancelled earlier is
neither back in the queue nor cancelled again by that tick. -/
theorem C8_completed_count (quanta : List Int) (created : Nat → timespec × timespec)
    (clks : List Readings) (c : Readings) :
    (initial quanta created).completed = 0 ∧
    ∃ s tr s1 ev, run_ticks (initial quanta created) clks = some (s, tr) ∧
      timer_handler s c = some (s1, ev) ∧
      s.thread_count = quanta.length ∧ s1.thread_count = quanta.length ∧
      0 ≤ s.completed ∧ s.completed ≤ s.thread_count ∧
      s.completed ≤ s1.completed ∧ s1.completed ≤ s.completed + 1 ∧
      s1.completed ≤ s1.thread_count ∧
      (∀ i, Event.cancel i ∈ tr → i ∉ s1.sched_queue ∧ Event.cancel i ∉ ev) := by
  refine ⟨rfl, ?_⟩
  obtain ⟨s, tr, hrun, hI⟩ := reach quanta created clks
  obtain ⟨s1, ev, h1, st⟩ := timer_handler_step s c hI.core
  have hI1 := inv_step hI st
  have hc := completed_eq hI
  have hc1 := completed_eq hI1
  have hn := hI.nonneg
  have hstep : s.completed ≤ s1.completed ∧ s1.completed ≤ s.completed + 1 := by
    cases st <;> dsimp only <;> omega
  refine ⟨s, tr, s1, ev, hrun, h1, hI.tc, hI1.tc, by omega, ?_, hstep.1, hstep.2, ?_, ?_⟩
  · rw [hI.tc]; omega
  · rw [hI1.tc]; omega
  · intro i hi
    constructor
    · exact ((hI1.cancelled i).mp (List.mem_append_left _ hi)).2
    · intro hev
      have h2 := hI1.cancelOnce i
      rw [List.count_append] at h2
      have h3 := List.count_pos_iff.mpr hi
      have h4 := List.count_pos_iff.mpr hev
      omega

/-- C9 (report exactly once). For `N >= 1` workers with positive quanta, the
tick that follows a run of `k` ticks from the initial state prints the
statistics report if and only if `k` is the sum of the quanta, which is the
tick in which `completed` reaches `thread_count`; it prints it at most once;
and the runs of `sum + 1` ticks or more hold exactly one report, shorter runs
none. -/
theorem C9_report_once (quanta : List Int) (created : Nat → timespec × timespec)
    (clks : List Readings) (c : Readings) (hN : 1 ≤ quanta.length)
    (hpos : ∀ x ∈ quanta, 0 < x) :
    ∃ s tr s1 ev, run_ticks (initial quanta created) clks = some (s, tr) ∧
      timer_handler s c = some (s1, ev) ∧
      (Event.report ∈ ev ↔ (clks.length : Int) = quanta.sum) ∧
      (Event.report ∈ ev ↔ s.completed < s.thread_count ∧ s1.completed = s1.thread_count) ∧
      ev.count Event.report ≤ 1 ∧
      tr.count Event.report = (if quanta.sum + 1 ≤ clks.length then 1 else 0) := by
  obtain ⟨s, tr, hrun, hI, hP⟩ := reachPos quanta created hpos clks
  obtain ⟨s1, ev, h1, st⟩ := timer_handler_step s c hI.core
  have hI1 := inv_step hI st
  have hP1 := posInv_step hI hP st
  have hiff := queue_empty_iff hpos hN hP
  have hiff1 := queue_empty_iff hpos hN hP1
  have hc := hI.core.count
  have hc1 := hI1.core.count
  have hr := hI.reports
  have hr1 := hI1.reports
  have hN0 : 0 < quanta.length := hN
  rw [List.count_append] at hr1
  simp only [hN0, and_true] at hr hr1
  have hmem : Event.report ∈ ev ↔ s.sched_queue ≠ [] ∧ s1.sched_queue = [] := by
    rw [← List.count_pos_iff]
    by_cases hq : s.sched_queue = [] <;> by_cases hq1 : s1.sched_queue = [] <;>
      simp only [hq, hq1, if_true, if_false] at hr hr1
    · exact ⟨fun h => by omega, fun h => absurd hq h.1⟩
    · omega
    · exact ⟨fun _ => ⟨hq, hq1⟩, fun _ => by omega⟩
    · exact ⟨fun h => by omega, fun h => absurd h.2 hq1⟩
  have hlen : ∀ t : Sched, t.sched_queue = [] ↔ t.sched_queue.length = 0 :=
    fun t => List.length_eq_zero.symm
  refine ⟨s, tr, s1, ev, hrun, h1, ?_, ?_, ?_, ?_⟩
  · rw [hmem, hiff1, Ne, hiff]
    push_cast
    omega
  · rw [hmem, Ne, hlen s, hlen s1]
    omega
  · by_cases hq : s.sched_queue = [] <;> by_cases hq1 : s1.sched_queue = [] <;>
      simp only [hq, hq1, if_true, if_false] at hr hr1 <;> omega
  · rw [hr]
    by_cases hq : s.sched_queue = []
    · rw [if_pos hq, if_pos (hiff.mp hq)]
    · rw [if_neg hq, if_neg (fun x => hq (hiff.mpr x))]

/-- C9 at quanta `[2,1]`: the tick after three ticks (the sum of the quanta)
prints the report, and the three ticks before it hold none. -/
theorem C9_report_once_witness :
    ∃ s tr s1 ev, run_ticks (initial [2, 1] created0) (ticks 3) = some (s, tr) ∧
      timer_handler s (tickAt 4) = some (s1, ev) ∧ Event.report ∈ ev ∧
      tr.count Event.report = 0 := by
  obtain ⟨s, tr, s1, ev, h1, h2, h3, _, _, h6⟩ :=
    C9_report_once [2, 1] created0 (ticks 3) (tickAt 4) (by decide) (by decide)
  exact ⟨s, tr, s1, ev, h1, h2, h3.mpr (by decide), by rw [h6]; decide⟩

/-- C10 (late ticks are no-ops). For any quanta, in every state reached by ticks
from the initial state in which `quit` is set, one more tick returns the same
state and emits no event. -/
theorem C10_late_ticks (quanta : List Int) (created : Nat → timespec × timespec)
    (clks : List Readings) (c : Readings) :
    ∃ s tr, run_ticks (initial quanta created) clks = some (s, tr) ∧
      (s.quit = 1 → timer_handler s c = some (s, [])) := by
  obtain ⟨s, tr, hrun, hI⟩ := reach quanta created clks
  refine ⟨s, tr, hrun, ?_⟩
  intro hquit
  have hq : s.sched_queue = [] := by
    rcases hI.quitQ with h | h
    · rw [h] at hquit; cases hquit
    · exact h.2
  have : timer_handler s c = some ({ s with quit := 1 }, []) := by
    simp [timer_handler, list_size, hq]
  rw [this, ← hquit]

/-- C10 at quanta `[1]`: the second tick sets `quit`, and a third tick changes
nothing and emits nothing. -/
theorem C10_late_ticks_witness :
    ∃ s tr, run_ticks (initial [1] created0) (ticks 2) = some (s, tr) ∧
      s.quit = 1 ∧ timer_handler s (tickAt 3) = some (s, []) := by
  obtain ⟨s, tr, h1, h2⟩ := C10_late_ticks [1] created0 (ticks 2) (tickAt 3)
  have e : (run_ticks (initial [1] created0) (ticks 2)).map (fun r => r.1.quit) = some 1 := by
    decide
  rw [h1] at e
  have hq : s.quit = 1 := by simpa using e
  exact ⟨s, tr, h1, hq, h2 hq⟩

/-! ## Lemmas for the budget, time and single-step properties -/

theorem timer_handler_current (s : Sched) (c : Nat) (clk : Readings)
    (hc : s.currentThread = some c) (hq : s.sched_queue ≠ []) :
    (next_worker (suspend_worker s c clk.suspend_now).1 = none ∧ timer_handler s clk = none) ∨
    (next_worker (suspend_worker s c clk.suspend_now).1 ≠ none ∧
      ∃ s1 ev, timer_handler s clk = some (s1, ev) ∧
        KeepsSuspend (suspend_worker s c clk.suspend_now) s1 ev) := by
  have hl : ¬ s.sched_queue.length = 0 := fun e => hq (List.length_eq_zero.mp e)
  cases hn : next_worker (suspend_worker s c clk.suspend_now).1 with
  | none =>
    left
    exact ⟨rfl, by simp [timer_handler, list_size, hl, hc, hn]⟩
  | some info =>
    right
    refine ⟨by simp, ?_⟩
    cases info with
    | none =>
      refine ⟨_, _, by simp only [timer_handler, list_size, hl, hc, hn, if_false]; rfl, ?_⟩
      exact ⟨rfl, rfl, rfl, rfl, rfl, fun _ => rfl, Or.inl rfl⟩
    | some w =>
      refine ⟨_, _, by simp only [timer_handler, list_size, hl, hc, hn, if_false]; rfl, ?_⟩
      refine ⟨rfl, rfl, rfl, rfl, rfl, ?_, Or.inr ⟨w, rfl⟩⟩
      intro j
      by_cases hj : j = w <;> simp [resume_worker, setInfo, update_wait_time, hj]

theorem mem_resumesOf (tr : List Event) (w : Nat) :
    w ∈ resumesOf tr ↔ Event.resume w ∈ tr := by
  induction tr with
  | nil => simp [resumesOf]
  | cons e tr ih => cases e <;> simp [resumesOf, ih]

theorem current_resumed {quanta : List Int} {k : Nat} {s : Sched} {tr : List Event}
    (hI : Inv quanta k s tr) (c : Nat) (hc : s.currentThread = some c) :
    Event.resume c ∈ tr := by
  rw [← mem_resumesOf]
  exact List.mem_of_getLast?_eq_some (hI.lastRes c hc)

theorem weightE_initial (quanta : List Int) (created : Nat → timespec × timespec) :
    weightE (initial quanta created) = (quanta.map effective).sum := by
  have : (initial quanta created).sched_queue.map
      (fun i => effective (((initial quanta created).info i).quanta)) =
      ((List.range quanta.length).map (quantum quanta)).map effective := by
    simp [initial, create_workers]
  rw [weightE, this, map_quantum_range]

theorem genInv_initial (quanta : List Int) (created : Nat → timespec × timespec) :
    GenInv quanta created 0 (initial quanta created) [] where
  untouched := fun _ _ => rfl
  le := fun _ _ => Or.inl rfl
  nonpos := fun i hi _ _ =>
    ⟨fun _ => rfl, fun h => absurd (List.mem_range.mpr hi) h⟩
  noSuspend := fun _ h => by cases h
  time := Or.inl ⟨rfl, weightE_initial quanta created⟩
  resumeCount := by
    intro i hi
    have : i ∈ (initial quanta created).sched_queue := List.mem_range.mpr hi
    simp [this]
    simp [initial, create_workers]

section GenStep

variable {quanta : List Int} {created : Nat → timespec × timespec} {k : Nat} {s s1 : Sched}
  {tr ev : List Event} {c : Readings}

theorem step_untouched (hI : Inv quanta k s tr) (hG : GenInv quanta created k s tr)
    (st : Step s c s1 ev) :
    ∀ i, Event.resume i ∉ tr ++ ev → s1.info i = create_workers quanta created i := by
  intro i hi
  rw [List.mem_append, not_or] at hi
  have hold := hG.untouched i hi.1
  have hcur := current_resumed hI
  cases st with
  | idle hq => exact hold
  | first h r hq hc =>
    dsimp only
    rw [resumedInfo_other _ _ _ _ (by rintro rfl; exact hi.2 (by simp))]
    exact hold
  | rotate h r n hq hc hpos hn =>
    dsimp only
    have e1 : i ≠ n := by rintro rfl; exact hi.2 (by simp)
    have e2 : i ≠ h := by rintro rfl; exact hi.1 (hcur i hc)
    rw [resumedInfo_other _ _ _ _ e1, suspendedInfo_other _ _ _ _ e2]
    exact hold
  | retire h n r hq hc hle =>
    dsimp only
    have e1 : i ≠ n := by rintro rfl; exact hi.2 (by simp)
    have e2 : i ≠ h := by rintro rfl; exact hi.1 (hcur i hc)
    rw [resumedInfo_other _ _ _ _ e1, suspendedInfo_other _ _ _ _ e2]
    exact hold
  | last h hq hc hle =>
    dsimp only
    have e2 : i ≠ h := by rintro rfl; exact hi.1 (hcur i hc)
    rw [suspendedInfo_other _ _ _ _ e2]
    exact hold

theorem step_le (hI : Inv quanta k s tr) (hG : GenInv quanta created k s tr)
    (st : Step s c s1 ev) : ∀ i ∈ s1.sched_queue, (s1.info i).quanta = quantum quanta i ∨
      (0 < (s1.info i).quanta ∧ (s1.info i).quanta < quantum quanta i) ∨
      quantum quanta i = INT_MIN := by
  have hold := hG.le
  have hmin : INT_MIN = -2147483648 := rfl
  cases st with
  | idle hq => exact hold
  | first h r hq hc =>
    intro i hi
    dsimp only at hi ⊢
    rw [resumedInfo_quanta]
    exact hold i hi
  | rotate h r n hq hc hpos hn =>
    intro i hi
    dsimp only at hi ⊢
    rw [resumedInfo_quanta]
    have hm : i ∈ s.sched_queue := by
      rw [hq]
      simp only [List.mem_append, List.mem_singleton] at hi
      rcases hi with hi | hi
      · exact List.mem_cons_of_mem _ hi
      · rw [hi]; exact List.mem_cons_self _ _
    have := hold i hm
    by_cases e : i = h
    · subst e
      rw [suspendedInfo_quanta_self]
      have hd := int_decrement_cases (s.info i).quanta
      omega
    · rw [suspendedInfo_other _ _ _ _ e]
      exact this
  | retire h n r hq hc hle =>
    intro i hi
    dsimp only at hi ⊢
    have hnd := hI.core.nodup
    rw [hq] at hnd
    have e : i ≠ h := by
      rintro rfl
      exact (List.nodup_cons.mp hnd).1 hi
    rw [resumedInfo_quanta, suspendedInfo_other _ _ _ _ e]
    apply hold i
    rw [hq]
    exact List.mem_cons_of_mem _ hi
  | last h hq hc hle =>
    intro i hi
    cases hi

theorem step_nonpos (hI : Inv quanta k s tr) (hG : GenInv quanta created k s tr)
    (st : Step s c s1 ev) : ∀ i, i < quanta.length → quantum quanta i ≤ 0 →
      quantum quanta i ≠ INT_MIN →
      (i ∈ s1.sched_queue → (s1.info i).quanta = quantum quanta i) ∧
      (i ∉ s1.sched_queue → (s1.info i).quanta = quantum quanta i - 1) := by
  intro i hi hq0 hne
  have hold := hG.nonpos i hi hq0 hne
  have hnd := hI.core.nodup
  have hmin : INT_MIN = -2147483648 := rfl
  have hdec : ∀ q : Int, q = quantum quanta i → int_decrement q = quantum quanta i - 1 := by
    intro q hq
    rcases int_decrement_cases q with ⟨h1, _⟩ | ⟨_, h2⟩
    · omega
    · omega
  cases st with
  | idle hq => exact hold
  | first h r hq hc =>
    dsimp only
    rw [resumedInfo_quanta]
    exact hold
  | rotate h r n hq hc hpos hn =>
    dsimp only
    rw [resumedInfo_quanta]
    have hmem : i ∈ r ++ [h] ↔ i ∈ s.sched_queue := by
      rw [hq]; simp [or_comm]
    rw [hmem]
    have e : i ≠ h := by
      rintro rfl
      have := hdec _ (hold.1 (by rw [hq]; simp))
      omega
    rw [suspendedInfo_other _ _ _ _ e]
    exact hold
  | retire h n r hq hc hle =>
    dsimp only
    rw [resumedInfo_quanta]
    rw [hq] at hnd hold
    have hnr : h ∉ n :: r := (List.nodup_cons.mp hnd).1
    by_cases e : i = h
    · subst e
      rw [suspendedInfo_quanta_self]
      refine ⟨fun hm => absurd hm hnr, fun _ => ?_⟩
      exact hdec _ (hold.1 (by simp))
    · rw [suspendedInfo_other _ _ _ _ e]
      constructor
      · intro hm
        exact hold.1 (List.mem_cons_of_mem _ hm)
      · intro hm
        apply hold.2
        intro hm2
        rcases List.mem_cons.mp hm2 with h3 | h3
        · exact e h3
        · exact hm h3
  | last h hq hc hle =>
    dsimp only
    rw [hq] at hold
    by_cases e : i = h
    · subst e
      rw [suspendedInfo_quanta_self, hdec _ (hold.1 (by simp))]
      simp
    · rw [suspendedInfo_other _ _ _ _ e]
      have := hold.2 (by simp [e])
      simp [this]

theorem step_noSuspend (hG : GenInv quanta created k s tr) (st : Step s c s1 ev) :
    ∀ i, Event.suspend i ∈ tr ++ ev → 2 ≤ quantum quanta i ∨ quantum quanta i = INT_MIN := by
  intro i hi
  have hold := hG.noSuspend i
  have hle := hG.le
  have hmin : INT_MIN = -2147483648 := rfl
  rw [List.mem_append] at hi
  rcases hi with hi | hi
  · exact hold hi
  · cases st with
    | idle hq => cases hi
    | first h r hq hc => simp at hi
    | rotate h r n hq hc hpos hn =>
      simp at hi
      subst hi
      have := hle i (by rw [hq]; simp)
      have hd := int_decrement_cases (s.info i).quanta
      omega
    | retire h n r hq hc hle => simp at hi
    | last h hq hc hle => simp at hi

theorem effective_cases (q : Int) :
    (q = -2147483648 ∧ effective q = 2147483648) ∨
    (q ≠ -2147483648 ∧ q ≤ 1 ∧ effective q = 1) ∨
    (q ≠ -2147483648 ∧ 1 ≤ q ∧ effective q = q) := by
  unfold effective INT_MIN INT_MAX
  by_cases h : q = -2147483648
  · left
    rw [if_pos h]
    exact ⟨h, rfl⟩
  · right
    rw [if_neg h]
    rcases le_total q 1 with h1 | h1
    · exact Or.inl ⟨h, h1, max_eq_right h1⟩
    · exact Or.inr ⟨h, h1, max_eq_left h1⟩

theorem effective_ge_one (q : Int) : 1 ≤ effective q := by
  have := effective_cases q
  omega

theorem effective_of_positive (q : Int) (h : 0 < q) : effective q = q := by
  have := effective_cases q
  omega

theorem effective_of_pos (q : Int) (h : 0 < int_decrement q) :
    effective q = int_decrement q + 1 ∧ effective (int_decrement q) = int_decrement q := by
  have h1 := effective_cases q
  have h2 := effective_cases (int_decrement q)
  have h3 := int_decrement_cases q
  omega

theorem effective_of_le (q : Int) (h : int_decrement q ≤ 0) : effective q = 1 := by
  have h1 := effective_cases q
  have h3 := int_decrement_cases q
  omega

theorem step_weightE (hI : Inv quanta k s tr) (st : Step s c s1 ev)
    (hst : s.currentThread = s.sched_queue.head?) (hne : s.sched_queue ≠ []) :
    weightE s1 + 1 = weightE s := by
  have hnd := hI.core.nodup
  cases st with
  | idle hq => exact absurd hq hne
  | first h r hq hc => rw [hq, hc] at hst; cases hst
  | rotate h r n hq hc hpos hn =>
    rw [hq] at hnd
    have hnr : h ∉ r := (List.nodup_cons.mp hnd).1
    have he := effective_of_pos _ hpos
    have hr : r.map (fun i => effective (suspendedInfo s h c.suspend_now i).quanta) =
        r.map (fun i => effective (s.info i).quanta) := by
      apply List.map_congr_left
      intro j hj
      rw [suspendedInfo_other]
      rintro rfl
      exact hnr hj
    simp only [weightE, hq, resumedInfo_quanta, List.map_append, List.map_cons, List.map_nil,
      List.sum_append, List.sum_cons, List.sum_nil, hr, suspendedInfo_quanta_self, he.1, he.2]
    omega
  | retire h n r hq hc hle =>
    rw [hq] at hnd
    have hnr : h ∉ n :: r := (List.nodup_cons.mp hnd).1
    have he := effective_of_le _ hle
    have hr : (n :: r).map (fun i => effective (suspendedInfo s h c.suspend_now i).quanta) =
        (n :: r).map (fun i => effective (s.info i).quanta) := by
      apply List.map_congr_left
      intro j hj
      rw [suspendedInfo_other]
      rintro rfl
      exact hnr hj
    simp only [weightE, hq, resumedInfo_quanta, hr]
    simp only [List.map_cons, List.sum_cons, he]
    omega
  | last h hq hc hle =>
    have he := effective_of_le _ hle
    simp only [weightE, hq, List.map_cons, List.map_nil, List.sum_cons, List.sum_nil, he]
    omega

theorem weightE_pos (hne : s.sched_queue ≠ []) : 0 < weightE s := by
  have : ∀ l : List Nat, (l.length : Int) ≤ (l.map fun i => effective (s.info i).quanta).sum := by
    intro l
    induction l with
    | nil => simp
    | cons a l ih =>
      have := effective_ge_one (s.info a).quanta
      simp only [List.length_cons, List.map_cons, List.sum_cons]
      push_cast
      omega
  have h1 := this s.sched_queue
  have h2 : 0 < s.sched_queue.length := List.length_pos.mpr hne
  unfold weightE
  omega

theorem step_timeE (hI : Inv quanta k s tr) (hG : GenInv quanta created k s tr)
    (st : Step s c s1 ev) :
    (k + 1 = 0 ∧ weightE s1 = (quanta.map effective).sum) ∨
    (1 ≤ k + 1 ∧ s1.sched_queue ≠ [] ∧
      weightE s1 + (k + 1 : Nat) = (quanta.map effective).sum + 1) ∨
    (1 ≤ k + 1 ∧ (quanta.map effective).sum + 1 ≤ (k + 1 : Nat) ∧ s1.sched_queue = []) := by
  have hold := hG.time
  rcases step_started_or_fresh hI with ⟨hk, hc0, _⟩ | ⟨hk, hst⟩
  · have hw : weightE s = (quanta.map effective).sum := by
      rcases hold with h1 | h1 | h1
      · exact h1.2
      · omega
      · omega
    cases st with
    | idle hq =>
      right; right
      have : weightE s = 0 := by simp [weightE, hq]
      refine ⟨by omega, ?_, hq⟩
      push_cast
      omega
    | first h r hq hc =>
      right; left
      refine ⟨by omega, by simp [hq], ?_⟩
      have : weightE { s with
          currentThread := some h
          info := resumedInfo s.info h c.resume_now } = weightE s := by
        simp only [weightE, resumedInfo_quanta]
      rw [this, hw, hk]
      simp
    | rotate h r n hq hc hpos hn => rw [hc0] at hc; cases hc
    | retire h n r hq hc hle => rw [hc0] at hc; cases hc
    | last h hq hc hle => rw [hc0] at hc; cases hc
  · by_cases hq : s.sched_queue = []
    · right; right
      have hq1 : s1.sched_queue = [] := by
        cases st with
        | idle _ => exact hq
        | first h r hq2 hc => rw [hq2] at hq; cases hq
        | rotate h r n hq2 hc hpos hn => rw [hq2] at hq; cases hq
        | retire h n r hq2 hc hle => rw [hq2] at hq; cases hq
        | last h hq2 hc hle => rfl
      refine ⟨by omega, ?_, hq1⟩
      rcases hold with h1 | h1 | h1
      · omega
      · exact absurd hq h1.2.1
      · push_cast; omega
    · have hw := step_weightE hI st hst hq
      have hsum : weightE s + k = (quanta.map effective).sum + 1 := by
        rcases hold with h1 | h1 | h1
        · omega
        · exact h1.2.2
        · exact absurd h1.2.2 hq
      by_cases hq1 : s1.sched_queue = []
      · right; right
        refine ⟨by omega, ?_, hq1⟩
        have : weightE s1 = 0 := by simp [weightE, hq1]
        push_cast
        omega
      · right; left
        refine ⟨by omega, hq1, ?_⟩
        push_cast
        omega

theorem step_resumeCountE (hI : Inv quanta k s tr) (hG : GenInv quanta created k s tr)
    (st : Step s c s1 ev) : ∀ i, i < quanta.length →
      (((tr ++ ev).count (Event.resume i) : Nat) : Int) =
        effective (quantum quanta i)
          - (if i ∈ s1.sched_queue then effective (s1.info i).quanta else 0)
          + (if s1.currentThread = some i then 1 else 0) := by
  intro i hi
  have hold := hG.resumeCount i hi
  have hnd := hI.core.nodup
  rw [List.count_append]
  push_cast
  rw [hold]
  cases st with
  | idle hq => simp
  | first h r hq hc =>
    dsimp only
    simp only [resumedInfo_quanta, hc, count_resume_one]
    by_cases e : h = i <;> simp [e]
  | rotate h r n hq hc hpos hn =>
    dsimp only
    rw [hq] at hnd
    have hnr : h ∉ r := (List.nodup_cons.mp hnd).1
    have he := effective_of_pos _ hpos
    simp only [resumedInfo_quanta, hc, hq, count_resume_suspend]
    by_cases e : i = h
    · subst e
      simp only [suspendedInfo_quanta_self, he.1, he.2]
      by_cases e2 : n = i <;> simp [e2] <;> omega
    · have e3 : h ≠ i := fun x => e x.symm
      rw [suspendedInfo_other _ _ _ _ e]
      by_cases e2 : n = i <;> by_cases hm : i ∈ r <;> simp [e, e2, e3, hm]
  | retire h n r hq hc hle =>
    dsimp only
    rw [hq] at hnd
    have hnr : h ∉ n :: r := (List.nodup_cons.mp hnd).1
    have hq1 := effective_of_le _ hle
    simp only [resumedInfo_quanta, hc, hq, count_resume_cancel]
    by_cases e : i = h
    · subst e
      have e2 : n ≠ i := by
        rintro rfl
        exact hnr (by simp)
      simp [hnr, e2, hq1]
    · have e3 : h ≠ i := fun x => e x.symm
      rw [suspendedInfo_other _ _ _ _ e]
      have hm : i ∈ h :: n :: r ↔ i ∈ n :: r := by simp [e]
      by_cases hm2 : i ∈ n :: r
      · rw [if_pos (hm.mpr hm2), if_pos hm2]
        by_cases e2 : n = i <;> simp [e2, e3]
      · rw [if_neg (fun x => hm2 (hm.mp x)), if_neg hm2]
        by_cases e2 : n = i <;> simp [e2, e3]
  | last h hq hc hle =>
    dsimp only
    have hq1 := effective_of_le _ hle
    simp only [hc, hq, count_resume_last]
    by_cases e : i = h
    · subst e
      simp [hq1]
    · have e3 : h ≠ i := fun x => e x.symm
      simp [e, e3]

theorem genInv_step (hI : Inv quanta k s tr) (hG : GenInv quanta created k s tr)
    (st : Step s c s1 ev) : GenInv quanta created (k + 1) s1 (tr ++ ev) where
  untouched := step_untouched hI hG st
  le := step_le hI hG st
  nonpos := step_nonpos hI hG st
  noSuspend := step_noSuspend hG st
  time := step_timeE hI hG st
  resumeCount := step_resumeCountE hI hG st

end GenStep

/-- Every run of ticks from the initial state returns, for any quanta, in a state
and with a trace that satisfy both families of invariants. -/
theorem reachGen (quanta : List Int) (created : Nat → timespec × timespec)
    (clks : List Readings) :
    ∃ s tr, run_ticks (initial quanta created) clks = some (s, tr) ∧
      Inv quanta clks.length s tr ∧ GenInv quanta created clks.length s tr := by
  induction clks using List.reverseRecOn with
  | nil => exact ⟨_, [], rfl, inv_initial quanta created, genInv_initial quanta created⟩
  | append_singleton cs c ih =>
    obtain ⟨s, tr, hrun, hI, hG⟩ := ih
    obtain ⟨s1, ev, h1, st⟩ := timer_handler_step s c hI.core
    refine ⟨s1, tr ++ ev, run_ticks_snoc cs c _ s s1 tr ev hrun h1, ?_⟩
    rw [List.length_append, List.length_singleton]
    exact ⟨inv_step hI st, genInv_step hI hG st⟩

theorem tdiv_1000_bounds (a : Int) :
    -1000 < a - 1000 * Int.tdiv a 1000 ∧ a - 1000 * Int.tdiv a 1000 < 1000 ∧
    (0 ≤ a → 0 ≤ Int.tdiv a 1000 ∧ 1000 * Int.tdiv a 1000 ≤ a) ∧
    (a < 0 → a ≤ 1000 * Int.tdiv a 1000 ∧ Int.tdiv a 1000 ≤ 0) := by
  rcases le_or_lt 0 a with h | h
  · have e : Int.tdiv a 1000 = a / 1000 := Int.tdiv_eq_ediv h (by decide)
    rw [e]
    omega
  · have e : Int.tdiv a 1000 = -((-a) / 1000) := by
      have h1 : Int.tdiv (-a) 1000 = (-a) / 1000 := Int.tdiv_eq_ediv (by omega) (by decide)
      have h2 : Int.tdiv (-a) 1000 = -(Int.tdiv a 1000) := Int.neg_tdiv a 1000
      omega
    rw [e]
    omega

theorem time_difference_exact (t1 t2 : timespec) (h : no_overflow t1 t2) :
    time_difference t1 t2 =
      (t1.tv_sec - t2.tv_sec) * 1000000 + Int.tdiv (t1.tv_nsec - t2.tv_nsec) 1000 := by
  obtain ⟨_, _, h3, h4⟩ := h
  have hmax : LONG_MAX = 9223372036854775807 := rfl
  have hmin : LONG_MIN = -9223372036854775808 := rfl
  unfold fits_long at h3 h4
  unfold time_difference
  have e1 : wrap_long (t1.tv_nsec - t2.tv_nsec) = t1.tv_nsec - t2.tv_nsec :=
    wrap_long_of_fits (by omega) (by omega)
  rw [e1, wrap_long_of_fits (by omega) (by omega)]

theorem no_overflow_of_window (t1 t2 : timespec) (h1 : normalized t1) (h2 : normalized t2)
    (hle : tsLe t2 t1) (hfit : (t1.tv_sec - t2.tv_sec + 1) * 1000000 ≤ LONG_MAX) :
    no_overflow t1 t2 := by
  unfold no_overflow fits_long
  have hmax : LONG_MAX = 9223372036854775807 := rfl
  have hmin : LONG_MIN = -9223372036854775808 := rfl
  unfold normalized at h1 h2
  unfold tsLe at hle
  have hb := tdiv_1000_bounds (t1.tv_nsec - t2.tv_nsec)
  refine ⟨⟨?_, ?_⟩, ⟨?_, ?_⟩, ⟨?_, ?_⟩, ⟨?_, ?_⟩⟩ <;> omega

theorem time_difference_bounds (t1 t2 : timespec) (h1 : normalized t1) (h2 : normalized t2)
    (hle : tsLe t2 t1) (hfit : (t1.tv_sec - t2.tv_sec + 1) * 1000000 ≤ LONG_MAX) :
    0 ≤ time_difference t1 t2 ∧
    time_difference t1 t2 < (t1.tv_sec - t2.tv_sec + 1) * 1000000 := by
  rw [time_difference_exact t1 t2 (no_overflow_of_window t1 t2 h1 h2 hle hfit)]
  have hmax : LONG_MAX = 9223372036854775807 := rfl
  unfold normalized at h1 h2
  unfold tsLe at hle
  have hb := tdiv_1000_bounds (t1.tv_nsec - t2.tv_nsec)
  constructor <;> omega

theorem time_difference_window {lo hi : Int} (t1 t2 : timespec) (h1 : normalized t1)
    (h2 : normalized t2) (hle : tsLe t2 t1) (hlo : lo ≤ t2.tv_sec) (hhi : t1.tv_sec ≤ hi)
    (hfit : spanMicros lo hi ≤ LONG_MAX) :
    0 ≤ time_difference t1 t2 ∧ time_difference t1 t2 ≤ spanMicros lo hi := by
  unfold spanMicros at hfit ⊢
  have := time_difference_bounds t1 t2 h1 h2 hle (by omega)
  omega

theorem tsLe_refl (a : timespec) : tsLe a a := Or.inr ⟨rfl, le_refl _⟩

theorem tsLe_trans {a b c : timespec} (h1 : tsLe a b) (h2 : tsLe b c) : tsLe a c := by
  unfold tsLe at *
  omega

theorem tsLe_sec {a b : timespec} (h : tsLe a b) : a.tv_sec ≤ b.tv_sec := by
  unfold tsLe at h
  omega

theorem heapOK_tail {N : Nat} {lo : Int} {a : timespec} {F : List timespec}
    {f : Nat → thread_info_t} (h : HeapOK N lo (a :: F) f) : HeapOK N lo F f := by
  intro i hi
  obtain ⟨h1, h2, l1, l2, h3, h4, h5⟩ := h i hi
  exact ⟨h1, h2, l1, l2, fun t ht => h3 t (List.mem_cons_of_mem _ ht), h4, h5⟩

theorem heapOK_span {N : Nat} {lo hi : Int} {a : timespec} {F : List timespec}
    {f : Nat → thread_info_t} (h : HeapOK N lo (a :: F) f) (hhi : a.tv_sec ≤ hi)
    (i : Nat) (hi2 : i < N) : 0 ≤ spanMicros lo hi := by
  obtain ⟨_, _, l1, _, h3, _, _⟩ := h i hi2
  have := tsLe_sec (h3 a (by simp)).1
  unfold spanMicros
  omega

theorem heapOK_suspend {N : Nat} {lo hi : Int} {t1 : timespec} {F : List timespec} (s : Sched)
    (h : Nat) (hok : HeapOK N lo (t1 :: F) s.info) (hn : normalized t1)
    (hF : ∀ t ∈ F, tsLe t1 t) (hhi : t1.tv_sec ≤ hi) (hfit : spanMicros lo hi ≤ LONG_MAX) :
    HeapOK N lo F (suspendedInfo s h t1) ∧
    ∀ i, i < N → (s.info i).run_time ≤ (suspendedInfo s h t1 i).run_time ∧
      (suspendedInfo s h t1 i).run_time ≤ (s.info i).run_time + spanMicros lo hi ∧
      (suspendedInfo s h t1 i).wait_time = (s.info i).wait_time := by
  constructor
  · intro i hi
    obtain ⟨h1, h2, l1, l2, h3, h4, h5⟩ := hok i hi
    by_cases e : i = h
    · subst e
      have hd := time_difference_window t1 (s.info i).resume_time hn h2 (h3 t1 (by simp)).2
        l2 hhi hfit
      have hs := tsLe_sec (h3 t1 (by simp)).1
      simp only [suspendedInfo, if_true, update_run_time]
      refine ⟨hn, h2, by omega, l2,
        fun t ht => ⟨hF t ht, (h3 t (List.mem_cons_of_mem _ ht)).2⟩, ?_, h5⟩
      omega
    · rw [suspendedInfo_other _ _ _ _ e]
      exact ⟨h1, h2, l1, l2, fun t ht => h3 t (List.mem_cons_of_mem _ ht), h4, h5⟩
  · intro i hi
    have hB := heapOK_span hok hhi i hi
    obtain ⟨h1, h2, l1, l2, h3, h4, h5⟩ := hok i hi
    by_cases e : i = h
    · subst e
      have hd := time_difference_window t1 (s.info i).resume_time hn h2 (h3 t1 (by simp)).2
        l2 hhi hfit
      simp only [suspendedInfo, if_true, update_run_time]
      exact ⟨by omega, by omega, trivial⟩
    · rw [suspendedInfo_other _ _ _ _ e]
      exact ⟨le_refl _, by omega, rfl⟩

theorem heapOK_resume {N : Nat} {lo hi : Int} {t2 : timespec} {F : List timespec}
    (f : Nat → thread_info_t) (n : Nat) (hok : HeapOK N lo (t2 :: F) f) (hn : normalized t2)
    (hF : ∀ t ∈ F, tsLe t2 t) (hhi : t2.tv_sec ≤ hi) (hfit : spanMicros lo hi ≤ LONG_MAX) :
    HeapOK N lo F (resumedInfo f n t2) ∧
    ∀ i, i < N → (f i).wait_time ≤ (resumedInfo f n t2 i).wait_time ∧
      (resumedInfo f n t2 i).wait_time ≤ (f i).wait_time + spanMicros lo hi ∧
      (resumedInfo f n t2 i).run_time = (f i).run_time := by
  constructor
  · intro i hi
    obtain ⟨h1, h2, l1, l2, h3, h4, h5⟩ := hok i hi
    by_cases e : i = n
    · subst e
      have hd := time_difference_window t2 (f i).suspend_time hn h1 (h3 t2 (by simp)).1
        l1 hhi hfit
      have hs := tsLe_sec (h3 t2 (by simp)).2
      simp only [resumedInfo, if_true, update_wait_time]
      refine ⟨h1, hn, l1, by omega,
        fun t ht => ⟨(h3 t (List.mem_cons_of_mem _ ht)).1, hF t ht⟩, h4, ?_⟩
      omega
    · rw [resumedInfo_other _ _ _ _ e]
      exact ⟨h1, h2, l1, l2, fun t ht => h3 t (List.mem_cons_of_mem _ ht), h4, h5⟩
  · intro i hi
    have hB := heapOK_span hok hhi i hi
    obtain ⟨h1, h2, l1, l2, h3, h4, h5⟩ := hok i hi
    refine ⟨?_, ?_, resumedInfo_run_time f n t2 i⟩
    · by_cases e : i = n
      · subst e
        have hd := time_difference_window t2 (f i).suspend_time hn h1 (h3 t2 (by simp)).1
          l1 hhi hfit
        simp only [resumedInfo, if_true, update_wait_time]
        omega
      · rw [resumedInfo_other _ _ _ _ e]
    · by_cases e : i = n
      · subst e
        have hd := time_difference_window t2 (f i).suspend_time hn h1 (h3 t2 (by simp)).1
          l1 hhi hfit
        simp only [resumedInfo, if_true, update_wait_time]
        omega
      · rw [resumedInfo_other _ _ _ _ e]
        omega

theorem time_step_core {quanta : List Int} {lo hi : Int} {k : Nat} {s s1 : Sched}
    {tr ev : List Event} {c : Readings} {F : List timespec} (hI : Inv quanta k s tr)
    (hheap : HeapOK quanta.length lo (c.suspend_now :: c.resume_now :: F) s.info)
    (htot : 0 ≤ s.run_times ∧ 0 ≤ s.wait_times)
    (hn1 : normalized c.suspend_now) (hn2 : normalized c.resume_now)
    (h12 : tsLe c.suspend_now c.resume_now)
    (hF : ∀ t ∈ F, tsLe c.suspend_now t ∧ tsLe c.resume_now t)
    (hh1 : c.suspend_now.tv_sec ≤ hi) (hh2 : c.resume_now.tv_sec ≤ hi)
    (hfit : spanMicros lo hi ≤ LONG_MAX) (st : Step s c s1 ev) :
    HeapOK quanta.length lo F s1.info ∧
    (∀ i, i < quanta.length →
      ((s.info i).run_time ≤ (s1.info i).run_time ∧
        (s1.info i).run_time ≤ (s.info i).run_time + spanMicros lo hi) ∧
      ((s.info i).wait_time ≤ (s1.info i).wait_time ∧
        (s1.info i).wait_time ≤ (s.info i).wait_time + spanMicros lo hi)) ∧
    (0 ≤ s1.run_times ∧ 0 ≤ s1.wait_times) ∧
    s.run_times ≤ s1.run_times ∧ s.wait_times ≤ s1.wait_times := by
  have hlt := hI.lt
  have hB := fun i hi2 => heapOK_span hheap hh1 i hi2
  have hF1 : ∀ t ∈ c.resume_now :: F, tsLe c.suspend_now t := by
    intro t ht
    rcases List.mem_cons.mp ht with rfl | ht
    · exact h12
    · exact (hF t ht).1
  have hF2 : ∀ t ∈ F, tsLe c.resume_now t := fun t ht => (hF t ht).2
  have hsus := fun h => heapOK_suspend s h hheap hn1 hF1 hh1 hfit
  cases st with
  | idle hq =>
    refine ⟨heapOK_tail (heapOK_tail hheap), fun i hi2 => ?_, htot, le_refl _, le_refl _⟩
    have := hB i hi2
    dsimp only
    omega
  | first h r hq hc =>
    obtain ⟨hok, hm⟩ := heapOK_resume s.info h (heapOK_tail hheap) hn2 hF2 hh2 hfit
    refine ⟨hok, fun i hi2 => ?_, htot, le_refl _, le_refl _⟩
    have := hB i hi2
    have := hm i hi2
    dsimp only
    omega
  | rotate h r n hq hc hpos hn =>
    obtain ⟨hok1, hm1⟩ := hsus h
    obtain ⟨hok, hm⟩ := heapOK_resume _ n hok1 hn2 hF2 hh2 hfit
    refine ⟨hok, fun i hi2 => ?_, htot, le_refl _, le_refl _⟩
    have := hB i hi2
    have := hm i hi2
    have := hm1 i hi2
    dsimp only
    omega
  | retire h n r hq hc hle =>
    obtain ⟨hok1, hm1⟩ := hsus h
    obtain ⟨hok, hm⟩ := heapOK_resume _ n hok1 hn2 hF2 hh2 hfit
    have hh : h < quanta.length := hlt h (by rw [hq]; simp)
    obtain ⟨_, _, _, _, _, h4, h5⟩ := hok1 h hh
    refine ⟨hok, fun i hi2 => ?_, ?_, ?_, ?_⟩
    · have := hB i hi2
      have := hm i hi2
      have := hm1 i hi2
      dsimp only
      omega
    · dsimp only
      constructor <;> omega
    · dsimp only
      omega
    · dsimp only
      omega
  | last h hq hc hle =>
    obtain ⟨hok1, hm1⟩ := hsus h
    have hh : h < quanta.length := hlt h (by rw [hq]; simp)
    obtain ⟨_, _, _, _, _, h4, h5⟩ := hok1 h hh
    refine ⟨heapOK_tail hok1, fun i hi2 => ?_, ?_, ?_, ?_⟩
    · have := hB i hi2
      have := hm1 i hi2
      dsimp only
      omega
    · dsimp only
      constructor <;> omega
    · dsimp only
      omega
    · dsimp only
      omega

theorem time_step {quanta : List Int} {lo hi : Int} {k : Nat} {s s1 : Sched}
    {tr ev : List Event} {c : Readings} {F : List timespec} (hI : Inv quanta k s tr)
    (hT : TimeInv quanta lo (spanMicros lo hi) k (c.suspend_now :: c.resume_now :: F) s)
    (hn1 : normalized c.suspend_now) (hn2 : normalized c.resume_now)
    (h12 : tsLe c.suspend_now c.resume_now)
    (hF : ∀ t ∈ F, tsLe c.suspend_now t ∧ tsLe c.resume_now t)
    (hh1 : c.suspend_now.tv_sec ≤ hi) (hh2 : c.resume_now.tv_sec ≤ hi)
    (hfit : spanMicros lo hi ≤ LONG_MAX) (st : Step s c s1 ev) :
    TimeInv quanta lo (spanMicros lo hi) (k + 1) F s1 ∧ TimesMono quanta.length s s1 := by
  obtain ⟨hheap, hup, htot⟩ := hT
  obtain ⟨a, b, d, e1, e2⟩ := time_step_core hI hheap htot hn1 hn2 h12 hF hh1 hh2 hfit st
  refine ⟨⟨a, fun i hi2 => ?_, d⟩, fun i hi2 => ⟨(b i hi2).1.1, (b i hi2).2.1⟩, e1, e2⟩
  have h1 := hup i hi2
  have h2 := b i hi2
  have e : ((k + 1 : Nat) : Int) * spanMicros lo hi = k * spanMicros lo hi + spanMicros lo hi := by
    push_cast
    ring
  rw [e]
  constructor <;> omega

theorem readingsOf_snoc (cs : List Readings) (c : Readings) :
    readingsOf (cs ++ [c]) = readingsOf cs ++ [c.suspend_now, c.resume_now] := by
  simp [readingsOf]

/-- Every run of ticks whose readings, followed by the readings `F` still to
come, are normalized, pairwise ordered after the creation timestamps and within
a window of seconds whose span fits into a `long`, ends in a state that
satisfies the time invariant for `F`. -/
theorem reachTime (quanta : List Int) (created : Nat → timespec × timespec) (lo hi : Int)
    (hc : ∀ i, i < quanta.length → normalized (created i).1 ∧ normalized (created i).2)
    (hlo : ∀ i, i < quanta.length → lo ≤ (created i).1.tv_sec ∧ lo ≤ (created i).2.tv_sec)
    (hfit : spanMicros lo hi ≤ LONG_MAX) (clks : List Readings) :
    ∀ F : List timespec, (∀ t ∈ readingsOf clks ++ F, normalized t) →
      (readingsOf clks ++ F).Pairwise tsLe →
      (∀ i, i < quanta.length → ∀ t ∈ readingsOf clks ++ F,
        tsLe (created i).1 t ∧ tsLe (created i).2 t) →
      (∀ t ∈ readingsOf clks, t.tv_sec ≤ hi) →
      ∃ s tr, run_ticks (initial quanta created) clks = some (s, tr) ∧
        Inv quanta clks.length s tr ∧
        TimeInv quanta lo (spanMicros lo hi) clks.length F s := by
  induction clks using List.reverseRecOn with
  | nil =>
    intro F _ _ hcr _
    refine ⟨_, [], rfl, inv_initial quanta created, ?_, ?_, ?_⟩
    · intro i hi2
      have h1 := hc i hi2
      have h2 := hlo i hi2
      refine ⟨h1.1, h1.2, h2.1, h2.2, ?_, le_refl _, le_refl _⟩
      intro t ht
      exact hcr i hi2 t (by simpa [readingsOf] using ht)
    · intro i _
      simp [initial, create_workers]
    · exact ⟨le_refl _, le_refl _⟩
  | append_singleton cs c ih =>
    intro F hn hp hcr hhi
    rw [readingsOf_snoc] at hhi
    rw [readingsOf_snoc, List.append_assoc] at hn hp hcr
    obtain ⟨s, tr, hrun, hI, hT⟩ := ih ([c.suspend_now, c.resume_now] ++ F) hn hp hcr
      (fun t ht => hhi t (List.mem_append_left _ ht))
    obtain ⟨s1, ev, h1, st⟩ := timer_handler_step s c hI.core
    refine ⟨s1, tr ++ ev, run_ticks_snoc cs c _ s s1 tr ev hrun h1, ?_, ?_⟩
    · rw [List.length_append, List.length_singleton]
      exact inv_step hI st
    · have hp2 := (List.pairwise_append.mp hp).2.1
      simp only [List.cons_append, List.nil_append, List.pairwise_cons] at hp2
      have hn1 : normalized c.suspend_now := hn _ (by simp)
      have hn2 : normalized c.resume_now := hn _ (by simp)
      have hT2 : TimeInv quanta lo (spanMicros lo hi) cs.length
          (c.suspend_now :: c.resume_now :: F) s := hT
      rw [List.length_append, List.length_singleton]
      refine (time_step hI hT2 hn1 hn2 (hp2.1 _ (by simp)) ?_ (hhi _ (by simp))
        (hhi _ (by simp)) hfit st).1
      intro t ht
      exact ⟨hp2.1 t (by simp [ht]), hp2.2.1 t ht⟩

theorem pairwise_of_chain (l : List timespec) (h : l.Chain' tsLe) : l.Pairwise tsLe := by
  induction l with
  | nil => exact List.Pairwise.nil
  | cons a l ih =>
    have hc := List.chain'_cons'.mp h
    refine List.pairwise_cons.mpr ⟨?_, ih hc.2⟩
    have hp := ih hc.2
    intro b hb
    cases l with
    | nil => cases hb
    | cons x l =>
      have hax : tsLe a x := hc.1 x (by simp)
      rcases List.mem_cons.mp hb with rfl | hb
      · exact hax
      · exact tsLe_trans hax ((List.pairwise_cons.mp hp).1 b hb)

theorem le_all_of_le_head (l : List timespec) (a : timespec) (hp : l.Pairwise tsLe)
    (h : ∀ t ∈ l.head?, tsLe a t) : ∀ t ∈ l, tsLe a t := by
  cases l with
  | nil => intro t ht; cases ht
  | cons x l =>
    have hax : tsLe a x := h x (by simp)
    intro t ht
    rcases List.mem_cons.mp ht with rfl | ht
    · exact hax
    · exact tsLe_trans hax ((List.pairwise_cons.mp hp).1 t ht)

theorem totals_le {quanta : List Int} {k : Nat} {s : Sched} {tr : List Event} {lo B : Int}
    {F : List timespec} (hI : Inv quanta k s tr) (hT : TimeInv quanta lo B k F s) :
    s.run_times ≤ quanta.length * (k * B) ∧ s.wait_times ≤ quanta.length * (k * B) := by
  have hb : ∀ g : Nat → Int, (∀ i, i < quanta.length → 0 ≤ g i ∧ g i ≤ k * B) →
      (∑ i ∈ Finset.range quanta.length, if i ∈ s.sched_queue then 0 else g i) ≤
        quanta.length * (k * B) := by
    intro g hg
    have h1 : (∑ i ∈ Finset.range quanta.length, if i ∈ s.sched_queue then 0 else g i) ≤
        ∑ _i ∈ Finset.range quanta.length, (k : Int) * B := by
      apply Finset.sum_le_sum
      intro i hi2
      have := hg i (Finset.mem_range.mp hi2)
      split <;> omega
    rw [Finset.sum_const, Finset.card_range, nsmul_eq_mul] at h1
    exact h1
  constructor
  · rw [hI.runSum]
    exact hb _ fun i hi2 => ⟨(hT.heap i hi2).2.2.2.2.2.1, (hT.upper i hi2).1⟩
  · rw [hI.waitSum]
    exact hb _ fun i hi2 => ⟨(hT.heap i hi2).2.2.2.2.2.2, (hT.upper i hi2).2⟩

/-! ## The claims on quota, single ticks, times and budgets -/

theorem effective_sum_nonneg (quanta : List Int) : 0 ≤ (quanta.map effective).sum := by
  apply List.sum_nonneg
  intro x hx
  obtain ⟨a, _, rfl⟩ := List.mem_map.mp hx
  have := effective_ge_one a
  omega

theorem complete_of_length {quanta : List Int} {created : Nat → timespec × timespec} {k : Nat}
    {s : Sched} {tr : List Event} (hG : GenInv quanta created k s tr)
    (hlen : (quanta.map effective).sum + 1 ≤ k) : s.sched_queue = [] ∧ 1 ≤ k := by
  have h0 := effective_sum_nonneg quanta
  rcases hG.time with h | h | h
  · omega
  · have := weightE_pos (s := s) h.2.1
    omega
  · exact ⟨h.2.2, h.1⟩

theorem current_mem {quanta : List Int} {k : Nat} {s : Sched} {tr : List Event}
    (hI : Inv quanta k s tr) (i : Nat) (hi : s.currentThread = some i) :
    i ∈ s.sched_queue := by
  rcases hI.core.cur with h | h
  · rw [h] at hi; cases hi
  · rw [hi] at h
    exact List.mem_of_mem_head? (by rw [← h]; rfl)

/-- C2 (quota conservation). For any quanta, positive or not: a run of more
ticks than the sum of the effective quanta is complete, `quit` is set; and over
a complete run every worker `i` whose own quanta is positive is resumed exactly
`quanta[i]` times, the directives are a sequence of pairs, a resume of a worker
immediately followed by one suspend or cancel of the same worker, and of two
workers with positive quanta the one with the larger quanta is resumed strictly
more often. -/
theorem C2_quota_conservation (quanta : List Int) (created : Nat → timespec × timespec)
    (clks : List Readings) :
    ∃ s tr, run_ticks (initial quanta created) clks = some (s, tr) ∧
      ((quanta.map effective).sum + 1 ≤ clks.length → s.quit = 1) ∧
      (s.quit = 1 →
        (∀ i, i < quanta.length → 0 < quantum quanta i →
          ((tr.count (Event.resume i) : Nat) : Int) = quantum quanta i) ∧
        paired (directivesOf tr) = true ∧
        (∀ i j, i < quanta.length → j < quanta.length → 0 < quantum quanta i →
          quantum quanta i < quantum quanta j →
          tr.count (Event.resume i) < tr.count (Event.resume j))) := by
  obtain ⟨s, tr, hrun, hI, hG⟩ := reachGen quanta created clks
  refine ⟨s, tr, hrun, ?_, ?_⟩
  · intro hlen
    obtain ⟨hq, hk⟩ := complete_of_length hG hlen
    exact hI.quitK hk hq
  · intro hquit
    have hq : s.sched_queue = [] := by
      rcases hI.quitQ with h | h
      · rw [hquit] at h; cases h
      · exact h.2
    have hc := current_none_of_empty hI.core hq
    have hcount : ∀ i, i < quanta.length → 0 < quantum quanta i →
        ((tr.count (Event.resume i) : Nat) : Int) = quantum quanta i := by
      intro i hi hpos
      rw [hG.resumeCount i hi, hq, hc, effective_of_positive _ hpos]
      simp
    refine ⟨hcount, ?_, ?_⟩
    · obtain ⟨P, hPp, hd⟩ := hI.pairs
      rw [hd, hc]
      simpa using hPp
    · intro i j hi hj hpos hlt
      have h1 := hcount i hi hpos
      have h2 := hcount j hj (by omega)
      omega

/-- C2 at quanta `[0, 2]` and four ticks: the run is complete and worker 1,
beside a worker with budget 0, is resumed exactly twice. -/
theorem C2_quota_conservation_witness :
    ∃ s tr, run_ticks (initial [0, 2] created0) (ticks 4) = some (s, tr) ∧ s.quit = 1 ∧
      ((tr.count (Event.resume 1) : Nat) : Int) = 2 ∧ paired (directivesOf tr) = true := by
  obtain ⟨s, tr, h1, h2, h3⟩ := C2_quota_conservation [0, 2] created0 (ticks 4)
  have hq := h2 (by decide)
  obtain ⟨a, b, _⟩ := h3 hq
  exact ⟨s, tr, h1, hq, a 1 (by decide) (by decide), b⟩

/-- C11, as stated, fails in the state reached by the first tick from quanta
`[INT_MIN]`: worker 0 is current with quanta `q = -2147483648`, so `q - 1` is not
positive, yet the next tick leaves it quanta 2147483647, not `q - 1`, sends it a
suspend and no cancel, keeps it in the queue and leaves `completed` at 0. -/
theorem C11_suspend_step_counterexample :
    ∃ s tr, run_ticks (initial [INT_MIN] created0) (ticks 1) = some (s, tr) ∧
      s.currentThread = some 0 ∧ (s.info 0).quanta = -2147483648 ∧
      (s.info 0).quanta - 1 ≤ 0 ∧
      (timer_handler s (tickAt 2)).map
        (fun r => ((r.1.info 0).quanta, r.1.sched_queue, r.1.completed, r.2)) =
        some (2147483647, [0], 0, [Event.suspend 0, Event.resume 0]) :=
  ⟨_, _, rfl, by decide⟩

/-- C11 (suspend step, amended). In every state reached from the initial state,
for any quanta, a tick returns, and if the state has a current worker `c` with
quanta `q` the tick sets the quanta of `c` to `int_decrement q`, which is `q - 1`
unless `q` is `INT_MIN`, and changes no other quanta; if the new quanta is
positive it sends a suspend and no cancel to `c`, moves `c` to the tail of the
queue, the other entries keeping their order, and keeps `completed` and the
totals; otherwise it sends a cancel and no suspend to `c`, takes `c` out of the
queue, adds its wait time and its updated run time to the totals and adds 1 to
`completed`. -/
theorem C11_suspend_step (quanta : List Int) (created : Nat → timespec × timespec)
    (clks : List Readings) (clk : Readings) :
    ∃ s tr s1 ev, run_ticks (initial quanta created) clks = some (s, tr) ∧
      timer_handler s clk = some (s1, ev) ∧
      ∀ c, s.currentThread = some c →
        (s1.info c).quanta = int_decrement (s.info c).quanta ∧
        ((s.info c).quanta ≠ INT_MIN →
          int_decrement (s.info c).quanta = (s.info c).quanta - 1) ∧
        (∀ j, j ≠ c → (s1.info j).quanta = (s.info j).quanta) ∧
        (0 < int_decrement (s.info c).quanta →
          ev.head? = some (Event.suspend c) ∧ Event.cancel c ∉ ev ∧
          s1.sched_queue = s.sched_queue.erase c ++ [c] ∧
          s1.completed = s.completed ∧ s1.wait_times = s.wait_times ∧
          s1.run_times = s.run_times) ∧
        (int_decrement (s.info c).quanta ≤ 0 →
          ev.head? = some (Event.cancel c) ∧ Event.suspend c ∉ ev ∧
          s1.sched_queue = s.sched_queue.erase c ∧ c ∉ s1.sched_queue ∧
          s1.wait_times = s.wait_times + (s.info c).wait_time ∧
          s1.run_times = s.run_times + ((s.info c).run_time +
            time_difference clk.suspend_now (s.info c).resume_time) ∧
          s1.completed = s.completed + 1) := by
  obtain ⟨s, tr, hrun, hI⟩ := reach quanta created clks
  obtain ⟨s1, ev, h1, st⟩ := timer_handler_step s clk hI.core
  refine ⟨s, tr, s1, ev, hrun, h1, ?_⟩
  intro c hc
  have hmem := current_mem hI c hc
  have hnd := hI.core.nodup
  have hdec : (s.info c).quanta ≠ INT_MIN →
      int_decrement (s.info c).quanta = (s.info c).quanta - 1 := by
    intro hne
    unfold int_decrement
    rw [if_neg hne]
  cases st with
  | idle hq => rw [hq] at hmem; cases hmem
  | first h r hq hc2 => rw [hc2] at hc; cases hc
  | rotate h r n hq hc2 hpos hn =>
    rw [hc2] at hc
    cases hc
    dsimp only
    refine ⟨?_, hdec, ?_, ?_, ?_⟩
    · rw [resumedInfo_quanta, suspendedInfo_quanta_self]
    · intro j hj
      rw [resumedInfo_quanta, suspendedInfo_other _ _ _ _ hj]
    · intro _
      refine ⟨rfl, by simp, ?_, rfl, rfl, rfl⟩
      rw [hq, List.erase_cons_head]
    · intro hle
      omega
  | retire h n r hq hc2 hle =>
    rw [hc2] at hc
    cases hc
    rw [hq] at hnd
    dsimp only
    refine ⟨?_, hdec, ?_, ?_, ?_⟩
    · rw [resumedInfo_quanta, suspendedInfo_quanta_self]
    · intro j hj
      rw [resumedInfo_quanta, suspendedInfo_other _ _ _ _ hj]
    · intro hpos
      omega
    · intro _
      refine ⟨rfl, by simp, ?_, (List.nodup_cons.mp hnd).1, ?_, ?_, rfl⟩
      · rw [hq, List.erase_cons_head]
      · rw [suspendedInfo_wait_time]
      · simp [suspendedInfo, update_run_time]
  | last h hq hc2 hle =>
    rw [hc2] at hc
    cases hc
    dsimp only
    refine ⟨?_, hdec, ?_, ?_, ?_⟩
    · rw [suspendedInfo_quanta_self]
    · intro j hj
      rw [suspendedInfo_other _ _ _ _ hj]
    · intro hpos
      omega
    · intro _
      refine ⟨rfl, by simp, ?_, by simp, ?_, ?_, rfl⟩
      · rw [hq, List.erase_cons_head]
      · rw [suspendedInfo_wait_time]
      · simp [suspendedInfo, update_run_time]

/-- C11 (amended) at the state reached by the first tick from quanta `[2,1]`:
worker 0 is current with 2 quanta; the next tick leaves it 1, sends it a
suspend and moves it behind worker 1. -/
theorem C11_suspend_step_witness :
    ∃ s tr s1 ev, run_ticks (initial [2, 1] created0) (ticks 1) = some (s, tr) ∧
      s.currentThread = some 0 ∧ timer_handler s (tickAt 2) = some (s1, ev) ∧
      (s1.info 0).quanta = 1 ∧ ev.head? = some (Event.suspend 0) ∧
      s1.sched_queue = [1, 0] ∧ s1.completed = s.completed := by
  obtain ⟨s, tr, s1, ev, hrun, h1, hall⟩ :=
    C11_suspend_step [2, 1] created0 (ticks 1) (tickAt 2)
  have e : (run_ticks (initial [2, 1] created0) (ticks 1)).map
      (fun r => (r.1.currentThread, (r.1.info 0).quanta, r.1.sched_queue)) =
      some (some 0, 2, [0, 1]) := by
    decide
  rw [hrun] at e
  simp only [Option.map_some', Option.some.injEq, Prod.mk.injEq] at e
  obtain ⟨e1, e2, e3⟩ := e
  obtain ⟨a, _, _, b, _⟩ := hall 0 e1
  rw [e2] at a b
  obtain ⟨b1, _, b3, b4, _⟩ := b (by decide)
  refine ⟨s, tr, s1, ev, hrun, e1, h1, ?_, b1, ?_, b4⟩
  · rw [a]; rfl
  · rw [b3, e3]; rfl

theorem bookkeeping (s : Sched) (h n : Nat) (t1 t2 : timespec) :
    (resumedInfo (suspendedInfo s h t1) n t2 h).run_time =
      (s.info h).run_time + time_difference t1 (s.info h).resume_time ∧
    (resumedInfo (suspendedInfo s h t1) n t2 h).suspend_time = t1 ∧
    (resumedInfo (suspendedInfo s h t1) n t2 n).wait_time =
      (s.info n).wait_time +
        time_difference t2 (if n = h then t1 else (s.info n).suspend_time) ∧
    (resumedInfo (suspendedInfo s h t1) n t2 n).resume_time = t2 ∧
    (∀ j, j ≠ h → j ≠ n →
      (resumedInfo (suspendedInfo s h t1) n t2 j).run_time = (s.info j).run_time ∧
      (resumedInfo (suspendedInfo s h t1) n t2 j).wait_time = (s.info j).wait_time) ∧
    (n ≠ h →
      (resumedInfo (suspendedInfo s h t1) n t2 n).run_time = (s.info n).run_time ∧
      (resumedInfo (suspendedInfo s h t1) n t2 h).wait_time = (s.info h).wait_time) := by
  refine ⟨?_, ?_, ?_, ?_, ?_, ?_⟩
  · rw [resumedInfo_run_time]
    simp [suspendedInfo, update_run_time]
  · by_cases e : h = n
    · subst e
      simp [resumedInfo, suspendedInfo, update_run_time, update_wait_time]
    · rw [resumedInfo_other _ _ _ _ e]
      simp [suspendedInfo, update_run_time]
  · by_cases e : n = h
    · subst e
      simp [resumedInfo, suspendedInfo, update_run_time, update_wait_time]
    · simp [resumedInfo, update_wait_time, suspendedInfo_other _ _ _ _ e, e]
  · simp [resumedInfo, update_wait_time]
  · intro j hj1 hj2
    rw [resumedInfo_other _ _ _ _ hj2, suspendedInfo_other _ _ _ _ hj1]
    exact ⟨rfl, rfl⟩
  · intro e
    have e2 : h ≠ n := fun x => e x.symm
    rw [resumedInfo_run_time, suspendedInfo_other _ _ _ _ e, resumedInfo_other _ _ _ _ e2,
      suspendedInfo_wait_time]
    exact ⟨rfl, rfl⟩

/-- C12 (time bookkeeping of one tick). In every state reached from the initial
state, a tick at readings `t1`, `t2` that suspends the current worker `w` and
resumes worker `n` adds `time_difference(t1, w.resume_time)` to the run time of
`w` and sets its `suspend_time` to `t1`; it adds
`time_difference(t2, n.suspend_time)` to the wait time of `n`, where
`n.suspend_time` is `t1` when `n` is `w` itself, and sets its `resume_time` to
`t2`; a worker never resumed before still has its creation timestamp as
`suspend_time`; no other run time or wait time changes. -/
theorem C12_time_bookkeeping (quanta : List Int) (created : Nat → timespec × timespec)
    (clks : List Readings) (clk : Readings) :
    ∃ s tr s1 ev, run_ticks (initial quanta created) clks = some (s, tr) ∧
      timer_handler s clk = some (s1, ev) ∧
      ∀ w n, s.currentThread = some w → Event.resume n ∈ ev →
        (s1.info w).run_time =
          (s.info w).run_time + time_difference clk.suspend_now (s.info w).resume_time ∧
        (s1.info w).suspend_time = clk.suspend_now ∧
        (s1.info n).wait_time =
          (s.info n).wait_time + time_difference clk.resume_now
            (if n = w then clk.suspend_now else (s.info n).suspend_time) ∧
        (s1.info n).resume_time = clk.resume_now ∧
        (∀ j, j ≠ w → j ≠ n →
          (s1.info j).run_time = (s.info j).run_time ∧
          (s1.info j).wait_time = (s.info j).wait_time) ∧
        (n ≠ w →
          (s1.info n).run_time = (s.info n).run_time ∧
          (s1.info w).wait_time = (s.info w).wait_time) ∧
        (Event.resume n ∉ tr → (s.info n).suspend_time = (created n).1) := by
  obtain ⟨s, tr, hrun, hI, hG⟩ := reachGen quanta created clks
  obtain ⟨s1, ev, h1, st⟩ := timer_handler_step s clk hI.core
  refine ⟨s, tr, s1, ev, hrun, h1, ?_⟩
  intro w n hw hn
  have hu : Event.resume n ∉ tr → (s.info n).suspend_time = (created n).1 := by
    intro h
    rw [hG.untouched n h]
    rfl
  cases st with
  | idle hq => cases hn
  | first h r hq hc => rw [hc] at hw; cases hw
  | rotate h r m hq hc hpos hm =>
    rw [hc] at hw
    cases hw
    have e : n = m := by simpa using hn
    subst e
    obtain ⟨b1, b2, b3, b4, b5, b6⟩ := bookkeeping s w n clk.suspend_now clk.resume_now
    exact ⟨b1, b2, b3, b4, b5, b6, hu⟩
  | retire h m r hq hc hle =>
    rw [hc] at hw
    cases hw
    have e : n = m := by simpa using hn
    subst e
    obtain ⟨b1, b2, b3, b4, b5, b6⟩ := bookkeeping s w n clk.suspend_now clk.resume_now
    exact ⟨b1, b2, b3, b4, b5, b6, hu⟩
  | last h hq hc hle => simp at hn

/-- C13, as stated, fails when a difference of two readings does not fit into a
`long`: worker 0 is created at time 0 and the first tick reads the clock at
second 9223372036855; all timestamps are normalized and in order, yet the wait
time of worker 0 goes from 0 to -9223372036854551616. -/
theorem C13_monotone_times_counterexample :
    (normalized (created0 0).1 ∧ normalized (created0 0).2) ∧
    (∀ t ∈ readingsOf [tickAt 9223372036855], normalized t) ∧
    (readingsOf [tickAt 9223372036855]).Chain' tsLe ∧
    (∀ t ∈ (readingsOf [tickAt 9223372036855]).head?,
      tsLe (created0 0).1 t ∧ tsLe (created0 0).2 t) ∧
    (run_ticks (initial [1] created0) []).map (fun r => (r.1.info 0).wait_time) = some 0 ∧
    (run_ticks (initial [1] created0) [tickAt 9223372036855]).map
      (fun r => (r.1.info 0).wait_time) = some (-9223372036854551616) := by
  refine ⟨by decide, by decide, ?_, by decide, by decide, by decide⟩
  simp [readingsOf, tickAt, tsLe]

/-- C13 (monotone accumulated times, amended). If the creation timestamps and all
clock readings are normalized, successive readings never go back, the first
one is not earlier than any creation timestamp, and no `long` overflows, for
which it is enough that the seconds of all timestamps lie between `lo` and `hi`
with `(hi - lo + 1) * 10^6` at most `LONG_MAX` and, for the sums, that this span
times the number of ticks times the number of workers is at most `LONG_MAX`:
then in the state reached by a run of ticks and in the state after one more
tick every worker's run time and wait time and both totals are not negative,
none of them decreases in that tick, and all of them are at most `LONG_MAX`. It
rests on `time_difference t1 t2 >= 0` for normalized `t2` not later than `t1`
whose difference fits. -/
theorem C13_monotone_times (quanta : List Int) (created : Nat → timespec × timespec)
    (clks : List Readings) (c : Readings) (lo hi : Int)
    (hc : ∀ i, i < quanta.length → normalized (created i).1 ∧ normalized (created i).2)
    (hn : ∀ t ∈ readingsOf (clks ++ [c]), normalized t)
    (hch : (readingsOf (clks ++ [c])).Chain' tsLe)
    (hcr : ∀ i, i < quanta.length → ∀ t ∈ (readingsOf (clks ++ [c])).head?,
      tsLe (created i).1 t ∧ tsLe (created i).2 t)
    (hlo : ∀ i, i < quanta.length → lo ≤ (created i).1.tv_sec ∧ lo ≤ (created i).2.tv_sec)
    (hhi : ∀ t ∈ readingsOf (clks ++ [c]), t.tv_sec ≤ hi)
    (hfit : spanMicros lo hi ≤ LONG_MAX)
    (hacc : (quanta.length : Int) * (((clks.length + 1 : Nat) : Int) * spanMicros lo hi)
      ≤ LONG_MAX) :
    ∃ s tr s1 ev, run_ticks (initial quanta created) clks = some (s, tr) ∧
      timer_handler s c = some (s1, ev) ∧
      (∀ i, i < quanta.length →
        0 ≤ (s.info i).run_time ∧ (s.info i).run_time ≤ (s1.info i).run_time ∧
        0 ≤ (s.info i).wait_time ∧ (s.info i).wait_time ≤ (s1.info i).wait_time ∧
        (s1.info i).run_time ≤ LONG_MAX ∧ (s1.info i).wait_time ≤ LONG_MAX) ∧
      0 ≤ s.run_times ∧ s.run_times ≤ s1.run_times ∧
      0 ≤ s.wait_times ∧ s.wait_times ≤ s1.wait_times ∧
      s1.run_times ≤ LONG_MAX ∧ s1.wait_times ≤ LONG_MAX ∧
      (∀ t1 t2, normalized t1 → normalized t2 → tsLe t2 t1 →
        (t1.tv_sec - t2.tv_sec + 1) * 1000000 ≤ LONG_MAX → 0 ≤ time_difference t1 t2) := by
  have hp := pairwise_of_chain _ hch
  have hcr2 : ∀ i, i < quanta.length → ∀ t ∈ readingsOf (clks ++ [c]),
      tsLe (created i).1 t ∧ tsLe (created i).2 t := by
    intro i hi t ht
    exact ⟨le_all_of_le_head _ _ hp (fun t ht => (hcr i hi t ht).1) t ht,
      le_all_of_le_head _ _ hp (fun t ht => (hcr i hi t ht).2) t ht⟩
  rw [readingsOf_snoc] at hn hp hcr2 hhi
  obtain ⟨s, tr, hrun, hI, hT⟩ :=
    reachTime quanta created lo hi hc hlo hfit clks [c.suspend_now, c.resume_now] hn hp hcr2
      (fun t ht => hhi t (List.mem_append_left _ ht))
  obtain ⟨s1, ev, h1, st⟩ := timer_handler_step s c hI.core
  have hI1 := inv_step hI st
  have hp2 := (List.pairwise_append.mp hp).2.1
  simp only [List.pairwise_cons] at hp2
  have hstep := time_step (F := []) hI hT (hn _ (by simp)) (hn _ (by simp))
    (hp2.1 _ (by simp)) (fun t ht => by cases ht) (hhi _ (by simp)) (hhi _ (by simp)) hfit st
  obtain ⟨hT1, hm, hm2, hm3⟩ := hstep
  have htl := totals_le hI1 hT1
  have hB : ∀ i, i < quanta.length → 0 ≤ spanMicros lo hi := fun i hi2 =>
    heapOK_span hT.heap (hhi _ (by simp)) i hi2
  refine ⟨s, tr, s1, ev, hrun, h1, ?_, hT.totals.1, hm2, hT.totals.2, hm3,
    le_trans htl.1 hacc, le_trans htl.2 hacc,
    fun t1 t2 a b d e => (time_difference_bounds t1 t2 a b d e).1⟩
  intro i hi2
  obtain ⟨_, _, _, _, _, h4, h5⟩ := hT.heap i hi2
  have hu := hT1.upper i hi2
  have hk : 0 ≤ ((clks.length + 1 : Nat) : Int) * spanMicros lo hi :=
    mul_nonneg (Int.ofNat_nonneg _) (hB i hi2)
  have hN : (1 : Int) ≤ quanta.length := by omega
  have hle : ((clks.length + 1 : Nat) : Int) * spanMicros lo hi ≤
      (quanta.length : Int) * (((clks.length + 1 : Nat) : Int) * spanMicros lo hi) :=
    le_mul_of_one_le_left hk hN
  exact ⟨h4, (hm i hi2).1, h5, (hm i hi2).2, by omega, by omega⟩

/-- C13 (amended) at quanta `[2,1]` with readings that cross second boundaries,
all within seconds 0 to 4. -/
theorem C13_monotone_times_witness :
    ∃ s tr s1 ev, run_ticks (initial [2, 1] created0) jitterTicks = some (s, tr) ∧
      timer_handler s jitterLast = some (s1, ev) ∧
      (∀ i, i < 2 →
        0 ≤ (s.info i).run_time ∧ (s.info i).run_time ≤ (s1.info i).run_time ∧
        0 ≤ (s.info i).wait_time ∧ (s.info i).wait_time ≤ (s1.info i).wait_time ∧
        (s1.info i).run_time ≤ LONG_MAX ∧ (s1.info i).wait_time ≤ LONG_MAX) ∧
      0 ≤ s.run_times ∧ s.run_times ≤ s1.run_times ∧
      0 ≤ s.wait_times ∧ s.wait_times ≤ s1.wait_times := by
  obtain ⟨s, tr, s1, ev, h1, h2, h3, h4, h5, h6, h7, _⟩ :=
    C13_monotone_times [2, 1] created0 jitterTicks jitterLast 0 4
      (by decide) (by decide)
      (by simp [readingsOf, jitterTicks, jitterLast, tsLe]) (by decide) (by decide)
      (by decide) (by decide) (by decide)
  exact ⟨s, tr, s1, ev, h1, h2, h3, h4, h5, h6, h7⟩

/-- C14, as stated, fails: with an empty queue at the start of the tick and
`completed` 0 below `thread_count` 1 the handler sets `quit` and returns. -/
theorem C14_empty_queue_counterexample :
    emptyQueueState.sched_queue = [] ∧
    emptyQueueState.completed < emptyQueueState.thread_count ∧
    emptyQueueState.quit = 0 ∧
    (timer_handler emptyQueueState (tickAt 1)).map
      (fun r => (r.1.quit, r.1.completed, r.1.thread_count, r.2)) = some (1, 0, 1, []) := by
  decide

/-- C14 (empty queue, amended). An empty queue at the start of a tick always
sets `quit`, whatever `completed` is. The wait for the next ready worker is in
`next_worker`: with an empty queue and `completed` below `thread_count` it does
not return, so a tick whose suspend step cancels the last queued worker (its
decremented quanta is not positive) while others are outstanding neither
returns nor sets `quit`. In the states reached
from the initial state the queue is empty exactly when `completed` has reached
`thread_count`, and a tick that changes `quit` sets it to 1 with the queue
empty and `completed` at `thread_count`. -/
theorem C14_empty_queue (quanta : List Int) (created : Nat → timespec × timespec)
    (clks : List Readings) (clk : Readings) :
    (∀ s : Sched, s.sched_queue = [] →
      timer_handler s clk = some ({ s with quit := 1 }, [])) ∧
    (∀ s : Sched, s.sched_queue = [] → s.completed < s.thread_count →
      next_worker s = none) ∧
    (∀ (s : Sched) (c : Nat), s.currentThread = some c → s.sched_queue = [c] →
      int_decrement (s.info c).quanta ≤ 0 → s.completed + 1 < s.thread_count →
      timer_handler s clk = none) ∧
    (∃ s tr s1 ev, run_ticks (initial quanta created) clks = some (s, tr) ∧
      timer_handler s clk = some (s1, ev) ∧
      (s.sched_queue = [] ↔ s.thread_count ≤ s.completed) ∧
      (s1.quit ≠ s.quit →
        s1.quit = 1 ∧ s1.sched_queue = [] ∧ s1.thread_count ≤ s1.completed)) := by
  refine ⟨?_, ?_, ?_, ?_⟩
  · intro s hq
    simp [timer_handler, list_size, hq]
  · intro s hq hlt
    have : ¬ s.thread_count ≤ s.completed := by omega
    simp [next_worker, wait_for_queue, list_size, hq, this]
  · intro s c hc hq hle hlt
    rcases timer_handler_current s c clk hc (by rw [hq]; simp) with h | ⟨h, _⟩
    · exact h.2
    · exfalso
      apply h
      rw [suspend_worker_eq, if_neg (by omega), cancel_worker_eq]
      have : ¬ s.thread_count ≤ s.completed + 1 := by omega
      simp [next_worker, wait_for_queue, list_size, hq, this]
  · obtain ⟨s, tr, hrun, hI⟩ := reach quanta created clks
    obtain ⟨s1, ev, h1, st⟩ := timer_handler_step s clk hI.core
    have hI1 := inv_step hI st
    have hcnt := hI.core.count
    have hcnt1 := hI1.core.count
    refine ⟨s, tr, s1, ev, hrun, h1, ?_, ?_⟩
    · constructor
      · intro hq
        rw [hq] at hcnt
        simp at hcnt
        omega
      · intro hle
        have : s.sched_queue.length = 0 := by omega
        exact List.length_eq_zero.mp this
    · intro hne
      have hq1 : s1.sched_queue = [] := by
        rcases hI1.quitQ with h | h
        · rcases hI.quitQ with h0 | h0
          · rw [h, h0] at hne; exact absurd rfl hne
          · have hq0 := h0.2
            cases st with
            | idle hq => exact hq
            | first h r hq hc => rw [hq] at hq0; cases hq0
            | rotate h r n hq hc hpos hn => rw [hq] at hq0; cases hq0
            | retire h n r hq hc hle => rw [hq] at hq0; cases hq0
            | last h hq hc hle => rfl
        · exact h.2
      refine ⟨hI1.quitK (by omega) hq1, hq1, ?_⟩
      rw [hq1] at hcnt1
      simp at hcnt1
      omega

/-- C14 (amended) at the state where worker 0 of two, alone in the queue, runs
its last quantum: the tick cancels it and then waits, it neither returns nor
sets `quit`. -/
theorem C14_empty_queue_witness :
    lastQueuedState.sched_queue = [0] ∧ timer_handler lastQueuedState (tickAt 1) = none :=
  ⟨rfl, (C14_empty_queue [] created0 [] (tickAt 1)).2.2.1 lastQueuedState 0 rfl rfl
    (by decide) (by decide)⟩

/-- C15 (accuracy of `time_difference`). For every pair of timespecs, normalized
or not, for which `time_difference` has no integer overflow, a thousand times
the result differs from the exact difference in nanoseconds by less than 1000
in absolute value. -/
theorem C15_time_difference_accuracy (t1 t2 : timespec) (h : no_overflow t1 t2) :
    |1000 * time_difference t1 t2 - (nanos t1 - nanos t2)| < 1000 := by
  rw [time_difference_exact t1 t2 h]
  unfold nanos
  have hb := tdiv_1000_bounds (t1.tv_nsec - t2.tv_nsec)
  rw [abs_lt]
  constructor <;> omega

/-- C15 at two normalized timestamps one nanosecond apart across a second
boundary: the result is 0 microseconds, the exact difference 1 nanosecond. -/
theorem C15_time_difference_accuracy_witness :
    no_overflow ⟨2, 0⟩ ⟨1, 999999999⟩ ∧
    |1000 * time_difference ⟨2, 0⟩ ⟨1, 999999999⟩ -
      (nanos ⟨2, 0⟩ - nanos ⟨1, 999999999⟩)| < 1000 :=
  ⟨by decide, C15_time_difference_accuracy ⟨2, 0⟩ ⟨1, 999999999⟩ (by decide)⟩

theorem int_decrement_of_nonpos {q : Int} (h : q ≤ 0) (hne : q ≠ INT_MIN) :
    int_decrement q = q - 1 ∧ int_decrement q ≤ 0 := by
  have hmin : INT_MIN = -2147483648 := rfl
  have := int_decrement_cases q
  omega

/-- C16, as stated, fails for one worker with quanta `INT_MIN`, which the command
line accepts: after its first quantum the decrement wraps, so the second tick
leaves it quanta 2147483647, sends it a suspend and not a cancel, keeps it in
the queue, resumes it again and leaves `completed` at 0. -/
theorem C16_nonpositive_budget_counterexample :
    quantum [INT_MIN] 0 ≤ 0 ∧
    (run_ticks (initial [INT_MIN] created0) (ticks 2)).map
      (fun r => ((r.1.info 0).quanta, r.1.sched_queue, r.1.completed, r.2)) =
      some (2147483647, [0], 0, [Event.resume 0, Event.suspend 0, Event.resume 0]) := by
  decide

/-- C16 (non-positive budget, amended). For any quanta: in every state reached
from the initial state a worker whose initial quanta is not positive and not
`INT_MIN` has been resumed at most once and never sent a suspend, a resumed
worker is the queue head, and if such a worker is current the next tick starts
by cancelling it, leaves its quanta at the initial value minus 1, takes it out
of the queue and adds 1 to `completed`. After one tick more than the sum of the
effective quanta of the workers the run is over: `completed` is `N`, `quit` is
1, and every such worker has been resumed exactly once and cancelled exactly
once. -/
theorem C16_nonpositive_budget (quanta : List Int) (created : Nat → timespec × timespec)
    (clks : List Readings) (clk : Readings) :
    ∃ s tr s1 ev, run_ticks (initial quanta created) clks = some (s, tr) ∧
      timer_handler s clk = some (s1, ev) ∧
      (∀ n, Event.resume n ∈ ev → s1.sched_queue.head? = some n) ∧
      (∀ i, i < quanta.length → quantum quanta i ≤ 0 → quantum quanta i ≠ INT_MIN →
        tr.count (Event.resume i) ≤ 1 ∧ Event.suspend i ∉ tr ++ ev ∧
        (s.currentThread = some i →
          ev.head? = some (Event.cancel i) ∧
          (s1.info i).quanta = quantum quanta i - 1 ∧
          i ∉ s1.sched_queue ∧ s1.completed = s.completed + 1)) ∧
      ((quanta.map effective).sum + 1 ≤ clks.length →
        s.completed = quanta.length ∧ s.quit = 1 ∧
        ∀ i, i < quanta.length → quantum quanta i ≤ 0 → quantum quanta i ≠ INT_MIN →
          tr.count (Event.resume i) = 1 ∧ tr.count (Event.cancel i) = 1 ∧
          i ∉ s.sched_queue ∧ (s.info i).quanta = quantum quanta i - 1) := by
  obtain ⟨s, tr, hrun, hI, hG⟩ := reachGen quanta created clks
  obtain ⟨s1, ev, h1, st⟩ := timer_handler_step s clk hI.core
  have hI1 := inv_step hI st
  have hG1 : GenInv quanta created (clks.length + 1) s1 (tr ++ ev) := genInv_step hI hG st
  have hcur := current_mem hI
  refine ⟨s, tr, s1, ev, hrun, h1, ?_, ?_, ?_⟩
  · intro n hn
    cases st with
    | idle hq => cases hn
    | first h r hq hc => simp at hn; subst hn; simp [hq]
    | rotate h r m hq hc hpos hm => simp at hn; subst hn; exact hm
    | retire h m r hq hc hle => simp at hn; subst hn; rfl
    | last h hq hc hle => simp at hn
  · intro i hi hq0 hne
    have hd := int_decrement_of_nonpos hq0 hne
    have he : effective (quantum quanta i) = 1 := effective_of_le _ hd.2
    refine ⟨?_, ?_, ?_⟩
    · have hc := hG.resumeCount i hi
      rw [he] at hc
      by_cases hm : i ∈ s.sched_queue
      · rw [if_pos hm, (hG.nonpos i hi hq0 hne).1 hm, he] at hc
        by_cases e : s.currentThread = some i
        · rw [if_pos e] at hc; omega
        · rw [if_neg e] at hc; omega
      · have e : ¬ s.currentThread = some i := fun x => hm (hcur i x)
        rw [if_neg hm, if_neg e] at hc
        omega
    · intro hs
      rcases hG1.noSuspend i hs with h2 | h2
      · omega
      · exact hne h2
    · intro hc
      have hm := hcur i hc
      have hqi := (hG.nonpos i hi hq0 hne).1 hm
      have hnd := hI.core.nodup
      cases st with
      | idle hq => rw [hq] at hm; cases hm
      | first h r hq hc2 => rw [hc2] at hc; cases hc
      | rotate h r m hq hc2 hpos hm2 =>
        rw [hc2] at hc
        cases hc
        rw [hqi] at hpos
        omega
      | retire h m r hq hc2 hle =>
        rw [hc2] at hc
        cases hc
        rw [hq] at hnd
        refine ⟨rfl, ?_, (List.nodup_cons.mp hnd).1, rfl⟩
        dsimp only
        rw [resumedInfo_quanta, suspendedInfo_quanta_self, hqi]
        exact hd.1
      | last h hq hc2 hle =>
        rw [hc2] at hc
        cases hc
        refine ⟨rfl, ?_, by simp, rfl⟩
        dsimp only
        rw [suspendedInfo_quanta_self, hqi]
        exact hd.1
  · intro hlen
    obtain ⟨hq, hk⟩ := complete_of_length hG hlen
    have hcnt := completed_eq hI
    rw [hq] at hcnt
    refine ⟨by simpa using hcnt, hI.quitK hk hq, ?_⟩
    intro i hi hq0 hne
    have hd := int_decrement_of_nonpos hq0 hne
    have he : effective (quantum quanta i) = 1 := effective_of_le _ hd.2
    have hm : i ∉ s.sched_queue := by rw [hq]; simp
    have hc := hG.resumeCount i hi
    have e : ¬ s.currentThread = some i := fun x => hm (hcur i x)
    rw [he, if_neg hm, if_neg e] at hc
    have hcan : Event.cancel i ∈ tr := (hI.cancelled i).mpr ⟨hi, hm⟩
    have h1c := hI.cancelOnce i
    have h2c := List.count_pos_iff.mpr hcan
    exact ⟨by omega, by omega, hm, (hG.nonpos i hi hq0 hne).2 hm⟩

/-- C16 (amended) at quanta `[0, 2]`: four ticks end the run; worker 0 is resumed
once, cancelled once and left with quanta -1. -/
theorem C16_nonpositive_budget_witness :
    ∃ s tr, run_ticks (initial [0, 2] created0) (ticks 4) = some (s, tr) ∧
      s.completed = 2 ∧ s.quit = 1 ∧ tr.count (Event.resume 0) = 1 ∧
      tr.count (Event.cancel 0) = 1 ∧ 0 ∉ s.sched_queue ∧ (s.info 0).quanta = -1 := by
  obtain ⟨s, tr, _, _, h1, _, _, _, h5⟩ :=
    C16_nonpositive_budget [0, 2] created0 (ticks 4) (tickAt 5)
  obtain ⟨a, b, d⟩ := h5 (by decide)
  obtain ⟨d1, d2, d3, d4⟩ := d 0 (by decide) (by decide) (by decide)
  exact ⟨s, tr, h1, a, b, d1, d2, d3, d4⟩

end Scheduler

namespace VirtualMemory

set_option maxRecDepth 100000 in
/-- C17 fails in the code under policy `fifo`. After the addresses of
`staleInput` the TLB still maps page 0 to frame 0 although the page was evicted
(`pageTable[0]` is -1) and frame 0 now holds page 128: the TLB is not coherent.
The next access to page 0 (address 7) is a TLB hit on frame 0, so the value
printed for address 7 is a byte of page 128. -/
theorem C17_tlb_stale_after_eviction :
    (translateAll "fifo" initializeStructures staleInput).map
      (fun r => (tlbCoherent r.1, search_tlb r.1.TLB 0, readAt r.1.pageTable 0,
        readAt r.1.memory 0)) = some (false, 0, -1, 128) ∧
    (translateAll "fifo" initializeStructures (staleInput ++ [7])).map
      (fun r => (r.1.tlbHitCount, r.2.getLast?)) =
      some (1, some { logicalAddress := 7, physicalAddress := 7, valueFromPage := 128 }) := by
  decide

end VirtualMemory
